import Mathlib

/-!
# Forbidden domains: canonical domain names and the forbidden-domain index

A shallow embedding of `src/main.cpp` (classes `Domain` and `DomainChecker`) and the
properties of it that the specification states.

Modelling conventions.

* A `std::string` is a `List Char`; one list element stands for one `char`.  Of the order
  on `char` the proofs use only that it is a strict total order.
* `size_t` is the 64-bit unsigned type and `int` the 32-bit signed type.  Positions and
  sizes are natural numbers and `std::string::npos` is `none`; a `size_t` subtraction is
  taken modulo `2^64` (`size_t_sub`), the conversion of a `size_t` value to `int` keeps the
  value modulo `2^32` in two's complement (`size_t_to_int`), and an `int` addition that
  leaves the range of `int` has no defined result (`int_add`).
* `int dot_pos` in `Domain::ReverseName` starts at the converted value of
  `last_dot_pos - 1`; the loop is entered only when that value is not negative and is then
  written over `dot_pos + 1 : Nat`, so that `0` is the exit state `dot_pos = -1`.
* An operation that can fail (an index or a substring position past the end of the string,
  a signed overflow) returns `Except.error`, as does a violated `assert`.
* `std::sort`, `std::unique` and `std::upper_bound` are modelled by the algorithms of the
  usual library implementations (see the definitions).
-/

namespace ForbiddenDomains

/-- A `std::string`. -/
abbrev Str := List Char

/-- The ways in which an operation of the program can fail. -/
inductive Failure where
  /-- A violated `assert` (the `InvalidInput` condition of the specification). -/
  | InvalidInput
  /-- An index or a substring position outside the string. -/
  | OutOfRange
  /-- An `int` operation whose result is outside the range of `int` (undefined behaviour). -/
  | SignedOverflow
  deriving DecidableEq, Repr

deriving instance DecidableEq for Except

/-! ## The `std::string` operations used by `Domain` -/

/-- The call `s.ends_with(c)`: the string is not empty and its last character is `c`. -/
def ends_with (s : Str) (c : Char) : Bool :=
  decide (s.getLast? = some c)

/-- The call `s.pop_back()`. -/
def pop_back (s : Str) : Str :=
  s.dropLast

/-- The call `s.push_back(c)`. -/
def push_back (s : Str) (c : Char) : Str :=
  s ++ [c]

/-- The backwards scan of `find_last_of`: the argument `n` is the number of positions
`0 .. n-1` still to look at, from the highest down. -/
def find_last_of.scan (s : Str) (c : Char) : Nat → Option Nat
  | 0 => none
  | i + 1 => if s[i]? = some c then some i else find_last_of.scan s c i

/-- The call `s.find_last_of(c)`: the highest position holding `c`, `none` for `npos`. -/
def find_last_of (s : Str) (c : Char) : Option Nat :=
  find_last_of.scan s c s.length

/-- The call `s[i]`, defined for a position inside the string. -/
def char_at (s : Str) (i : Nat) : Except Failure Char :=
  match s[i]? with
  | some c => .ok c
  | none => .error .OutOfRange

/-- The call `s.substr(pos)`: fails (`std::out_of_range`) when `pos > s.size()`. -/
def substr_from (s : Str) (pos : Nat) : Except Failure Str :=
  if pos ≤ s.length then .ok (s.drop pos) else .error .OutOfRange

/-- The call `s.substr(pos, n)`: fails when `pos > s.size()`, and otherwise takes at most
`n` characters from `pos`. -/
def substr (s : Str) (pos n : Nat) : Except Failure Str :=
  if pos ≤ s.length then .ok ((s.drop pos).take n) else .error .OutOfRange

/-- The call `s.starts_with(p)`. -/
def starts_with (s p : Str) : Bool :=
  p.isPrefixOf s

/-- The algorithm `std::lexicographical_compare` on two strings, with `<` on `char`. -/
def lexicographical_compare : Str → Str → Bool
  | [], [] => false
  | [], _ :: _ => true
  | _ :: _, [] => false
  | a :: as, b :: bs =>
    if a < b then true
    else if b < a then false
    else lexicographical_compare as bs

/-! ## The integer types -/

/-- The constant `INT_MAX`: the largest value of the 32-bit `int`, `2^31 - 1`. -/
def INT_MAX : Nat := 2147483647

/-- The difference `a - b` of two `size_t` values: unsigned arithmetic modulo `2^64`. -/
def size_t_sub (a b : Nat) : Nat :=
  (a % 2 ^ 64 + 2 ^ 64 - b % 2 ^ 64) % 2 ^ 64

/-- The conversion of a `size_t` value to `int`: the value modulo `2^32`, read in two's
complement. -/
def size_t_to_int (n : Nat) : Int :=
  if n % 2 ^ 32 ≤ INT_MAX then ((n % 2 ^ 32 : Nat) : Int)
  else ((n % 2 ^ 32 : Nat) : Int) - 2 ^ 32

/-- The sum `a + b` of two `int` values that are not negative: outside the range of `int`
the addition has no defined result. -/
def int_add (a b : Nat) : Except Failure Nat :=
  if a + b ≤ INT_MAX then .ok (a + b) else .error .SignedOverflow

/-! ## `Domain` -/

/-- The body of the `while (dot_pos >= 0)` loop of `Domain::ReverseName`, run until the loop
exits.  The first argument is `dot_pos + 1` for a `dot_pos` that is not negative: the case
`0` is the exit of the loop (`dot_pos = -1`) and the case `dot_pos + 1` one run of the body
followed by `--dot_pos`.  In the body `dot_pos + 1` is an `int` addition and
`last_dot_pos - dot_pos - 1` two `size_t` subtractions. -/
def ReverseName.loop (name : Str) : Nat → Nat → Str → Except Failure Str
  | 0, _, reverse_name => .ok reverse_name
  | dot_pos + 1, last_dot_pos, reverse_name => do
    let c ← char_at name dot_pos
    if c = '.' then
      let reverse_name := push_back reverse_name '.'
      let pos ← int_add dot_pos 1
      let label ← substr name pos (size_t_sub (size_t_sub last_dot_pos dot_pos) 1)
      ReverseName.loop name dot_pos dot_pos (reverse_name ++ label)
    else if dot_pos = 0 then
      let reverse_name := push_back reverse_name '.'
      let label ← substr name 0 last_dot_pos
      ReverseName.loop name dot_pos last_dot_pos (reverse_name ++ label)
    else
      ReverseName.loop name dot_pos last_dot_pos reverse_name

/-- The text that the loop of `ReverseName` appends, read off the characters it walks
over: `walked` holds the characters before the current position from the highest position
down, and `label` the characters between the current position and `last_dot_pos`.  It is the
reference the loop is proved against (`ReverseName.loop_eq`). -/
def ReverseName.appended : Str → Str → Str
  | [], _ => []
  | c :: walked, label =>
    if c = '.' then '.' :: label ++ ReverseName.appended walked []
    else if walked = [] then '.' :: c :: label
    else ReverseName.appended walked (c :: label)

/-- The method `Domain::ReverseName` from `name.find_last_of('.')` on, that is on the name
without its trailing separator.  The line `int dot_pos = last_dot_pos - 1` is a `size_t`
subtraction followed by the conversion to `int`; the loop is entered when the result is not
negative. -/
def ReverseName.body (name : Str) : Except Failure Str :=
  match find_last_of name '.' with
  | none => .ok (push_back name '.')
  | some last_dot_pos => do
    let reverse_name ← substr_from name (last_dot_pos + 1)
    let dot_pos : Int := size_t_to_int (size_t_sub last_dot_pos 1)
    let reverse_name ←
      if 0 ≤ dot_pos then
        ReverseName.loop name (dot_pos.toNat + 1) last_dot_pos reverse_name
      else .ok reverse_name
    .ok (push_back reverse_name '.')

/-- The method `Domain::ReverseName`: the trailing separator is dropped, the rest is
`ReverseName.body`. -/
def ReverseName (name : Str) : Except Failure Str :=
  let name := if ends_with name '.' then pop_back name else name
  ReverseName.body name

/-- The class `Domain`: its one data member. -/
structure Domain where
  reversed_name_ : Str
  deriving DecidableEq, Repr

/-- The constructor `Domain::Domain(string name)`. -/
def Domain.new (name : Str) : Except Failure Domain :=
  if name.length > 0 then do
    let reversed_name_ ← ReverseName name
    .ok ⟨reversed_name_⟩
  else .error .InvalidInput

/-- The method `Domain::GetReversedName`. -/
def Domain.GetReversedName (self : Domain) : Str :=
  self.reversed_name_

/-- The operator `Domain::operator==`. -/
def Domain.eq (self other : Domain) : Bool :=
  decide (self.reversed_name_ = other.reversed_name_)

/-- The operator `Domain::operator!=`. -/
def Domain.ne (self other : Domain) : Bool :=
  !(self.eq other)

/-- The method `Domain::IsSubDomain`. -/
def Domain.IsSubDomain (self other : Domain) : Bool :=
  starts_with self.reversed_name_ other.reversed_name_

/-- The operator `Domain::operator<`. -/
def Domain.lt (self other : Domain) : Bool :=
  lexicographical_compare self.reversed_name_ other.reversed_name_

/-! ## `DomainChecker` -/

/-- One insertion step of the sort: `x` goes before the first element that `x` is less
than. -/
def sort.insert (x : Domain) : List Domain → List Domain
  | [] => [x]
  | y :: ys => if x.lt y then x :: y :: ys else y :: sort.insert x ys

/-- The call `sort(first, last)` with `Domain::operator<`, computed by insertion.  The result
of `std::sort` is the rearrangement in non-descending order; for `Domain` that rearrangement
is unique (`sort_eq_of_perm_of_sorted`), whatever the algorithm. -/
def sort : List Domain → List Domain
  | [] => []
  | x :: xs => sort.insert x (sort xs)

/-- The scan of `std::unique` as the library implementations run it, also for a predicate
that is not an equivalence: `dest` is the last element kept so far, and an element `x` is
dropped when `pred dest x` holds, kept (and made the new `dest`) otherwise. -/
def unique.scan (pred : Domain → Domain → Bool) (dest : Domain) : List Domain → List Domain
  | [] => []
  | x :: xs => if pred dest x then unique.scan pred dest xs else x :: unique.scan pred x xs

/-- The call `unique(first, last, pred)` followed by `erase(last_unique, end)`: the elements
that are kept, in order. -/
def unique (pred : Domain → Domain → Bool) : List Domain → List Domain
  | [] => []
  | x :: xs => x :: unique.scan pred x xs

/-- The lambda `sub_domain_comp` of the constructor. -/
def sub_domain_comp (domain1 domain2 : Domain) : Bool :=
  domain2.IsSubDomain domain1

/-- The halving loop of `std::upper_bound` over the range `[first, first + len)`:
`half = len >> 1`, `middle = first + half`, then either `len = half` or
`first = middle + 1, len = len - half - 1`.  The first argument bounds the number of
iterations. -/
def upper_bound.loop (v : List Domain) (value : Domain) : Nat → Nat → Nat → Nat
  | 0, first, _ => first
  | fuel + 1, first, len =>
    if len > 0 then
      let half := len / 2
      let middle := first + half
      match v[middle]? with
      | some m =>
        if value.lt m then upper_bound.loop v value fuel first half
        else upper_bound.loop v value fuel (middle + 1) (len - half - 1)
      | none => first
    else first

/-- The call `upper_bound(v.begin(), v.end(), value)`, as a position in `v`.  The length of
`v` is enough iterations, since `len` decreases in each. -/
def upper_bound (v : List Domain) (value : Domain) : Nat :=
  upper_bound.loop v value v.length 0 v.length

/-- The class `DomainChecker`: its one data member. -/
structure DomainChecker where
  forbidden_domains_ : List Domain
  deriving DecidableEq, Repr

/-- The constructor `DomainChecker::DomainChecker(It first, It last)`, on the list of the
domains in `[first, last)`. -/
def DomainChecker.new (input : List Domain) : DomainChecker :=
  let forbidden_domains_ := input
  let forbidden_domains_ := sort forbidden_domains_
  let forbidden_domains_ := unique sub_domain_comp forbidden_domains_
  ⟨forbidden_domains_⟩

/-- The method `DomainChecker::IsForbidden`. -/
def DomainChecker.IsForbidden (self : DomainChecker) (domain : Domain) : Bool :=
  let next_domain_it := upper_bound self.forbidden_domains_ domain
  if next_domain_it ≠ 0 then
    match self.forbidden_domains_[next_domain_it - 1]? with
    | some prev => domain.IsSubDomain prev
    | none => false
  else false

/-- The domain whose canonical form is the given text (test scaffolding: the canonical
forms are spelled out). -/
def dom (reversed : String) : Domain :=
  ⟨reversed.toList⟩

/-- A label of `n` characters `x` (test scaffolding for names longer than `INT_MAX`). -/
def long_label (n : Nat) : Str :=
  List.replicate n 'x'

/-! ## The order on canonical forms and the prefix test -/

theorem lexicographical_compare_irrefl (a : Str) : lexicographical_compare a a = false := by
  induction a with
  | nil => rfl
  | cons c cs ih => simp [lexicographical_compare, ih]

theorem lexicographical_compare_trans :
    ∀ a b c : Str, lexicographical_compare a b = true → lexicographical_compare b c = true →
      lexicographical_compare a c = true
  | [], [], _, h, _ => by simp [lexicographical_compare] at h
  | [], _ :: _, [], _, h => by simp [lexicographical_compare] at h
  | [], _ :: _, _ :: _, _, _ => by simp [lexicographical_compare]
  | _ :: _, [], _, h, _ => by simp [lexicographical_compare] at h
  | _ :: _, _ :: _, [], _, h => by simp [lexicographical_compare] at h
  | x :: xs, y :: ys, z :: zs, hxy, hyz => by
    have ih := lexicographical_compare_trans xs ys zs
    simp only [lexicographical_compare] at hxy hyz ⊢
    rcases lt_trichotomy x y with hlt | heq | hgt
    · rcases lt_trichotomy y z with hlt2 | heq2 | hgt2
      · simp [lt_trans hlt hlt2]
      · subst heq2; simp [hlt]
      · simp [hgt2, not_lt_of_gt hgt2] at hyz
    · subst heq
      rcases lt_trichotomy x z with hlt2 | heq2 | hgt2
      · simp [hlt2]
      · subst heq2
        simp only [lt_irrefl, if_false] at hxy hyz ⊢
        exact ih hxy hyz
      · simp [hgt2, not_lt_of_gt hgt2] at hyz
    · simp [hgt, not_lt_of_gt hgt] at hxy

theorem lexicographical_compare_total :
    ∀ a b : Str, lexicographical_compare a b = false → lexicographical_compare b a = false →
      a = b
  | [], [], _, _ => rfl
  | [], _ :: _, h, _ => by simp [lexicographical_compare] at h
  | _ :: _, [], _, h => by simp [lexicographical_compare] at h
  | x :: xs, y :: ys, hxy, hyx => by
    have ih := lexicographical_compare_total xs ys
    simp only [lexicographical_compare] at hxy hyx
    rcases lt_trichotomy x y with hlt | heq | hgt
    · simp [hlt] at hxy
    · subst heq
      simp only [lt_irrefl, if_false] at hxy hyx
      rw [ih hxy hyx]
    · simp [hgt] at hyx

theorem starts_with_iff (s p : Str) : starts_with s p = true ↔ p <+: s := by
  simp [starts_with]

theorem lexicographical_compare_of_prefix :
    ∀ p s : Str, p <+: s → lexicographical_compare s p = false
  | [], [], _ => rfl
  | [], _ :: _, _ => rfl
  | _ :: _, [], h => by simp at h
  | a :: p, b :: s, h => by
    have ih := lexicographical_compare_of_prefix p s
    rw [List.cons_prefix_cons] at h
    obtain ⟨rfl, h⟩ := h
    simp [lexicographical_compare, ih h]

theorem prefix_of_between :
    ∀ p x c : Str, p <+: c → lexicographical_compare x p = false →
      lexicographical_compare c x = false → p <+: x
  | [], _, _, _, _, _ => List.nil_prefix
  | _ :: _, _, [], h, _, _ => by simp at h
  | _ :: _, [], _ :: _, _, h, _ => by simp [lexicographical_compare] at h
  | a :: p, b :: x, d :: c, hpc, hxp, hcx => by
    have ih := prefix_of_between p x c
    rw [List.cons_prefix_cons] at hpc
    obtain ⟨rfl, hpc⟩ := hpc
    simp only [lexicographical_compare] at hxp hcx
    rcases lt_trichotomy a b with hlt | heq | hgt
    · simp [hlt] at hcx
    · subst heq
      simp only [lt_irrefl, if_false] at hxp hcx
      rw [List.cons_prefix_cons]
      exact ⟨rfl, ih hpc hxp hcx⟩
    · simp [hgt] at hxp

/-! ## `Domain::operator<` is a strict total order -/

theorem Domain.lt_irrefl (a : Domain) : a.lt a = false :=
  lexicographical_compare_irrefl _

theorem Domain.lt_trans {a b c : Domain} (hab : a.lt b = true) (hbc : b.lt c = true) :
    a.lt c = true :=
  lexicographical_compare_trans _ _ _ hab hbc

theorem Domain.eq_of_not_lt {a b : Domain} (hab : a.lt b = false) (hba : b.lt a = false) :
    a = b := by
  cases a; cases b
  simp only [Domain.lt] at hab hba
  simp [lexicographical_compare_total _ _ hab hba]

theorem Domain.lt_asymm {a b : Domain} (hab : a.lt b = true) : b.lt a = false := by
  by_contra h
  have h1 := Domain.lt_trans hab (by simpa using h)
  simp [Domain.lt_irrefl] at h1

theorem Domain.lt_of_lt_of_le {a b c : Domain} (hab : a.lt b = true) (hbc : c.lt b = false) :
    a.lt c = true := by
  by_contra h
  have hac : a.lt c = false := by simpa using h
  cases hca : c.lt a with
  | true => simp [Domain.lt_trans hca hab] at hbc
  | false =>
    have := Domain.eq_of_not_lt hac hca
    subst this
    simp [hab] at hbc

theorem Domain.lt_of_le_of_lt {a b c : Domain} (hab : b.lt a = false) (hbc : b.lt c = true) :
    a.lt c = true := by
  by_contra h
  have hac : a.lt c = false := by simpa using h
  cases hca : c.lt a with
  | true => simp [Domain.lt_trans hbc hca] at hab
  | false =>
    have := Domain.eq_of_not_lt hac hca
    subst this
    simp [hbc] at hab

theorem Domain.le_trans {a b c : Domain} (hab : b.lt a = false) (hbc : c.lt b = false) :
    c.lt a = false := by
  by_contra h
  have hca : c.lt a = true := by simpa using h
  have := Domain.lt_of_lt_of_le hca hab
  simp [this] at hbc

theorem Domain.isSubDomain_iff (a b : Domain) :
    a.IsSubDomain b = true ↔ b.reversed_name_ <+: a.reversed_name_ := by
  simp [Domain.IsSubDomain, starts_with]

theorem Domain.isSubDomain_refl (a : Domain) : a.IsSubDomain a = true := by
  simp [Domain.isSubDomain_iff]

theorem Domain.isSubDomain_trans {a b c : Domain} (hab : a.IsSubDomain b = true)
    (hbc : b.IsSubDomain c = true) : a.IsSubDomain c = true := by
  rw [Domain.isSubDomain_iff] at *
  exact hbc.trans hab

/-- An ancestor is not greater than its descendant. -/
theorem Domain.le_of_isSubDomain {a b : Domain} (h : a.IsSubDomain b = true) :
    a.lt b = false :=
  lexicographical_compare_of_prefix _ _ ((Domain.isSubDomain_iff a b).1 h)

/-- Everything between an ancestor and one of its descendants is a descendant too. -/
theorem Domain.isSubDomain_of_between {a x b : Domain} (h : a.IsSubDomain b = true)
    (hbx : x.lt b = false) (hxa : a.lt x = false) : x.IsSubDomain b = true := by
  rw [Domain.isSubDomain_iff] at *
  exact prefix_of_between _ _ _ h hbx hxa

/-! ## `sort` -/

theorem sort.insert_perm (x : Domain) (l : List Domain) : (sort.insert x l).Perm (x :: l) := by
  induction l with
  | nil => exact List.Perm.refl _
  | cons y ys ih =>
    unfold sort.insert
    split
    · exact List.Perm.refl _
    · exact (List.Perm.cons y ih).trans (List.Perm.swap x y ys)

theorem sort_perm (l : List Domain) : (sort l).Perm l := by
  induction l with
  | nil => exact List.Perm.refl _
  | cons x xs ih => exact (sort.insert_perm x (sort xs)).trans (List.Perm.cons x ih)

theorem sort.insert_sorted (x : Domain) (l : List Domain)
    (h : l.Pairwise (fun a b => b.lt a = false)) :
    (sort.insert x l).Pairwise (fun a b => b.lt a = false) := by
  induction l with
  | nil => simp [sort.insert]
  | cons y ys ih =>
    rw [List.pairwise_cons] at h
    unfold sort.insert
    split
    · rename_i hxy
      refine List.pairwise_cons.2 ⟨?_, List.pairwise_cons.2 h⟩
      intro z hz
      rcases List.mem_cons.1 hz with rfl | hz
      · exact Domain.lt_asymm hxy
      · exact Domain.lt_asymm (Domain.lt_of_lt_of_le hxy (h.1 z hz))
    · rename_i hxy
      refine List.pairwise_cons.2 ⟨?_, ih h.2⟩
      intro z hz
      rcases List.mem_cons.1 ((sort.insert_perm x ys).subset hz) with rfl | hz
      · simpa using hxy
      · exact h.1 z hz

theorem sort_sorted (l : List Domain) : (sort l).Pairwise (fun a b => b.lt a = false) := by
  induction l with
  | nil => simp [sort]
  | cons x xs ih => exact sort.insert_sorted x _ ih

/-- The non-descending rearrangement of a list of domains is unique: whatever a sorting
algorithm does, its result is `sort l`. -/
theorem sort_eq_of_perm_of_sorted (l r : List Domain) (hp : r.Perm l)
    (hs : r.Pairwise (fun a b => b.lt a = false)) : r = sort l := by
  haveI : IsAntisymm Domain (fun a b => b.lt a = false) :=
    ⟨fun a b h1 h2 => Domain.eq_of_not_lt h2 h1⟩
  exact List.eq_of_perm_of_sorted (hp.trans (sort_perm l).symm) hs (sort_sorted l)

/-! ## `unique` -/

theorem unique.scan_sublist (pred : Domain → Domain → Bool) (dest : Domain) (l : List Domain) :
    (unique.scan pred dest l).Sublist l := by
  induction l generalizing dest with
  | nil => exact List.Sublist.refl _
  | cons x xs ih =>
    unfold unique.scan
    split
    · exact (ih dest).cons x
    · exact (ih x).cons₂ x

theorem unique_sublist (pred : Domain → Domain → Bool) (l : List Domain) :
    (unique pred l).Sublist l := by
  cases l with
  | nil => exact List.Sublist.refl _
  | cons x xs => exact (unique.scan_sublist pred x xs).cons₂ x

/-- Every scanned element is kept or is dropped against an element that is kept. -/
theorem unique.scan_cover (pred : Domain → Domain → Bool) (dest : Domain) (l : List Domain) :
    ∀ x ∈ l, ∃ r ∈ dest :: unique.scan pred dest l, r = x ∨ pred r x = true := by
  induction l generalizing dest with
  | nil => intro x hx; simp at hx
  | cons y ys ih =>
    intro x hx
    unfold unique.scan
    rcases List.mem_cons.1 hx with rfl | hx
    · split
      · rename_i h
        exact ⟨dest, List.mem_cons_self _ _, Or.inr h⟩
      · exact ⟨x, List.mem_cons_of_mem _ (List.mem_cons_self _ _), Or.inl rfl⟩
    · split
      · exact ih dest x hx
      · obtain ⟨r, hr, h⟩ := ih y x hx
        exact ⟨r, List.mem_cons_of_mem _ hr, h⟩

theorem unique_cover (pred : Domain → Domain → Bool) (l : List Domain) :
    ∀ x ∈ l, ∃ r ∈ unique pred l, r = x ∨ pred r x = true := by
  cases l with
  | nil => intro x hx; simp at hx
  | cons y ys =>
    intro x hx
    rcases List.mem_cons.1 hx with rfl | hx
    · exact ⟨x, List.mem_cons_self _ _, Or.inl rfl⟩
    · exact unique.scan_cover pred y ys x hx

/-- No kept element satisfies the predicate with the kept element before it. -/
theorem unique.scan_chain (pred : Domain → Domain → Bool) (dest : Domain) (l : List Domain) :
    List.Chain (fun a b => pred a b = false) dest (unique.scan pred dest l) := by
  induction l generalizing dest with
  | nil => exact List.Chain.nil
  | cons x xs ih =>
    unfold unique.scan
    split
    · exact ih dest
    · rename_i h
      exact List.Chain.cons (by simpa using h) (ih x)

/-- In a sorted sequence whose neighbours are not ancestor and descendant, no element is an
ancestor of a later one. -/
theorem pairwise_of_chain_of_sorted (dest : Domain) (t : List Domain)
    (hc : List.Chain (fun a b => sub_domain_comp a b = false) dest t)
    (hs : (dest :: t).Pairwise (fun a b => b.lt a = false)) :
    (dest :: t).Pairwise (fun a b => b.IsSubDomain a = false) := by
  induction t generalizing dest with
  | nil => simp
  | cons y ys ih =>
    rw [List.chain_cons] at hc
    rw [List.pairwise_cons] at hs
    refine List.pairwise_cons.2 ⟨?_, ih y hc.2 hs.2⟩
    intro x hx
    rcases List.mem_cons.1 hx with rfl | hx
    · exact hc.1
    · by_contra h
      have hxd : x.IsSubDomain dest = true := by simpa using h
      have hyx : x.lt y = false := (List.pairwise_cons.1 hs.2).1 x hx
      have := Domain.isSubDomain_of_between hxd (hs.1 y (List.mem_cons_self _ _)) hyx
      have hc1 : y.IsSubDomain dest = false := hc.1
      simp [this] at hc1

theorem unique_sorted (l : List Domain) (hs : l.Pairwise (fun a b => b.lt a = false)) :
    (unique sub_domain_comp l).Pairwise (fun a b => b.lt a = false) :=
  hs.sublist (unique_sublist _ l)

/-- After the collapse of a sorted sequence no element is an ancestor of a later one. -/
theorem unique_pairwise (l : List Domain) (hs : l.Pairwise (fun a b => b.lt a = false)) :
    (unique sub_domain_comp l).Pairwise (fun a b => b.IsSubDomain a = false) := by
  cases l with
  | nil => simp [unique]
  | cons x xs =>
    exact pairwise_of_chain_of_sorted x _ (unique.scan_chain sub_domain_comp x xs)
      (unique_sorted (x :: xs) hs)

/-! ## `upper_bound` -/

theorem sorted_getElem? {v : List Domain} (hs : v.Pairwise (fun a b => b.lt a = false))
    {i j : Nat} {a b : Domain} (hij : i ≤ j) (hi : v[i]? = some a) (hj : v[j]? = some b) :
    b.lt a = false := by
  obtain ⟨hi', rfl⟩ := List.getElem?_eq_some.1 hi
  obtain ⟨hj', rfl⟩ := List.getElem?_eq_some.1 hj
  rcases Nat.lt_or_eq_of_le hij with h | rfl
  · exact List.pairwise_iff_getElem.1 hs i j hi' hj' h
  · exact Domain.lt_irrefl _

/-- The invariant of the halving loop: everything before `first` is not greater than `value`,
everything from `first + len` on is greater; at the exit the position splits the sequence. -/
theorem upper_bound.loop_spec (v : List Domain) (value : Domain)
    (hs : v.Pairwise (fun a b => b.lt a = false)) :
    ∀ fuel first len : Nat, len ≤ fuel → first + len ≤ v.length →
      (∀ j x, j < first → v[j]? = some x → value.lt x = false) →
      (∀ j x, first + len ≤ j → v[j]? = some x → value.lt x = true) →
      upper_bound.loop v value fuel first len ≤ v.length ∧
      (∀ j x, j < upper_bound.loop v value fuel first len → v[j]? = some x →
        value.lt x = false) ∧
      (∀ j x, upper_bound.loop v value fuel first len ≤ j → v[j]? = some x →
        value.lt x = true) := by
  intro fuel
  induction fuel with
  | zero =>
    intro first len hlen hbound hlo hhi
    have : len = 0 := by omega
    subst this
    exact ⟨by simpa [upper_bound.loop] using hbound, by simpa [upper_bound.loop] using hlo,
      by simpa [upper_bound.loop] using hhi⟩
  | succ fuel ih =>
    intro first len hlen hbound hlo hhi
    unfold upper_bound.loop
    by_cases hpos : len > 0
    · have hmid : first + len / 2 < v.length := by omega
      simp only [hpos, if_true, List.getElem?_eq_getElem hmid]
      have hm : v[first + len / 2]? = some v[first + len / 2] := List.getElem?_eq_getElem hmid
      cases hcmp : value.lt v[first + len / 2] with
      | true =>
        simp only [if_true]
        refine ih first (len / 2) (by omega) (by omega) hlo ?_
        intro j x hj hx
        exact Domain.lt_of_lt_of_le hcmp (sorted_getElem? hs hj hm hx)
      | false =>
        simp only [Bool.false_eq_true, if_false]
        refine ih (first + len / 2 + 1) (len - len / 2 - 1) (by omega) (by omega) ?_ ?_
        · intro j x hj hx
          by_contra h
          have hlt : value.lt x = true := by simpa using h
          have := Domain.lt_of_lt_of_le hlt (sorted_getElem? hs (by omega : j ≤ first + len / 2)
            hx hm)
          simp [this] at hcmp
        · intro j x hj hx
          exact hhi j x (by omega) hx
    · have : len = 0 := by omega
      subst this
      simp only [gt_iff_lt, lt_irrefl, if_false]
      exact ⟨by omega, hlo, by simpa using hhi⟩

/-- On a sorted sequence `upper_bound` returns the position that separates the elements not
greater than `value` from the elements greater than `value`. -/
theorem upper_bound_spec (v : List Domain) (value : Domain)
    (hs : v.Pairwise (fun a b => b.lt a = false)) :
    upper_bound v value ≤ v.length ∧
    (∀ j x, j < upper_bound v value → v[j]? = some x → value.lt x = false) ∧
    (∀ j x, upper_bound v value ≤ j → v[j]? = some x → value.lt x = true) := by
  refine upper_bound.loop_spec v value hs v.length 0 v.length (le_refl _) (by omega) ?_ ?_
  · intro j x hj; omega
  · intro j x hj hx
    rw [List.getElem?_eq_none (by omega)] at hx
    cases hx

/-! ## The stored sequence and the query -/

theorem stored_sorted (S : List Domain) :
    (DomainChecker.new S).forbidden_domains_.Pairwise (fun a b => b.lt a = false) :=
  unique_sorted _ (sort_sorted S)

theorem stored_pairwise (S : List Domain) :
    (DomainChecker.new S).forbidden_domains_.Pairwise (fun a b => b.IsSubDomain a = false) :=
  unique_pairwise _ (sort_sorted S)

theorem stored_subset (S : List Domain) {E : Domain}
    (h : E ∈ (DomainChecker.new S).forbidden_domains_) : E ∈ S :=
  (sort_perm S).subset ((unique_sublist sub_domain_comp (sort S)).subset h)

/-- Every input domain has an ancestor (possibly itself) in the stored sequence. -/
theorem stored_cover (S : List Domain) {E : Domain} (h : E ∈ S) :
    ∃ r ∈ (DomainChecker.new S).forbidden_domains_, E.IsSubDomain r = true := by
  obtain ⟨r, hr, hcase⟩ := unique_cover sub_domain_comp (sort S) E ((sort_perm S).symm.subset h)
  refine ⟨r, hr, ?_⟩
  rcases hcase with rfl | hcase
  · exact Domain.isSubDomain_refl _
  · exact hcase

/-- Two stored elements at different positions are not ancestor and descendant. -/
theorem stored_not_isSubDomain (S : List Domain) {i j : Nat} {a b : Domain} (hij : i ≠ j)
    (hi : (DomainChecker.new S).forbidden_domains_[i]? = some a)
    (hj : (DomainChecker.new S).forbidden_domains_[j]? = some b) :
    a.IsSubDomain b = false := by
  obtain ⟨hi', rfl⟩ := List.getElem?_eq_some.1 hi
  obtain ⟨hj', rfl⟩ := List.getElem?_eq_some.1 hj
  rcases Nat.lt_or_gt_of_ne hij with h | h
  · by_contra hsub
    have hsub : (DomainChecker.new S).forbidden_domains_[i].IsSubDomain
        (DomainChecker.new S).forbidden_domains_[j] = true := by simpa using hsub
    have h1 := Domain.le_of_isSubDomain hsub
    have h2 := List.pairwise_iff_getElem.1 (stored_sorted S) i j hi' hj' h
    have heq := Domain.eq_of_not_lt h1 h2
    have h3 := List.pairwise_iff_getElem.1 (stored_pairwise S) i j hi' hj' h
    rw [← heq, Domain.isSubDomain_refl] at h3
    cases h3
  · exact List.pairwise_iff_getElem.1 (stored_pairwise S) j i hj' hi' h

/-- The query looks at one stored element and still finds every stored ancestor. -/
theorem isForbidden_iff_stored (S : List Domain) (D : Domain) :
    (DomainChecker.new S).IsForbidden D = true ↔
      ∃ E ∈ (DomainChecker.new S).forbidden_domains_, D.IsSubDomain E = true := by
  obtain ⟨hlen, hlo, hhi⟩ := upper_bound_spec _ D (stored_sorted S)
  constructor
  · intro h
    unfold DomainChecker.IsForbidden at h
    simp only at h
    split at h
    · split at h
      · rename_i prev hprev
        exact ⟨prev, List.getElem?_mem hprev, h⟩
      · cases h
    · cases h
  · rintro ⟨E, hE, hsub⟩
    obtain ⟨j, hj⟩ := List.mem_iff_getElem?.1 hE
    have hjlt : j < upper_bound (DomainChecker.new S).forbidden_domains_ D := by
      by_contra hge
      have := hhi j E (by omega) hj
      rw [Domain.le_of_isSubDomain hsub] at this
      cases this
    have hprev : upper_bound (DomainChecker.new S).forbidden_domains_ D - 1 <
        (DomainChecker.new S).forbidden_domains_.length := by omega
    obtain ⟨P, hP⟩ : ∃ P, (DomainChecker.new S).forbidden_domains_[
        upper_bound (DomainChecker.new S).forbidden_domains_ D - 1]? = some P :=
      ⟨_, List.getElem?_eq_getElem hprev⟩
    have hDP := hlo _ _ (by omega) hP
    have hEP := sorted_getElem? (stored_sorted S) (by omega :
      j ≤ upper_bound (DomainChecker.new S).forbidden_domains_ D - 1) hj hP
    have hPE := Domain.isSubDomain_of_between hsub hEP hDP
    have hidx : j = upper_bound (DomainChecker.new S).forbidden_domains_ D - 1 := by
      by_contra hne
      have := stored_not_isSubDomain S (Ne.symm hne) hP hj
      rw [hPE] at this
      cases this
    rw [← hidx, hj] at hP
    cases hP
    unfold DomainChecker.IsForbidden
    simp only
    rw [if_pos (by omega), ← hidx, hj]
    exact hsub

/-! ## `ReverseName` -/

theorem find_last_of.scan_append (s t : Str) (c : Char) (ht : c ∉ t) :
    ∀ j, j ≤ t.length →
      find_last_of.scan (s ++ t) c (s.length + j) = find_last_of.scan (s ++ t) c s.length
  | 0, _ => rfl
  | j + 1, hj => by
    have ih := find_last_of.scan_append s t c ht j (by omega)
    have hne : (s ++ t)[s.length + j]? ≠ some c := by
      rw [List.getElem?_append_right (by omega)]
      intro h
      apply ht
      have := List.getElem?_mem h
      simpa using this
    rw [← Nat.add_assoc]
    simp only [find_last_of.scan, hne, if_false]
    exact ih

theorem find_last_of_eq_none (s : Str) (c : Char) (hs : c ∉ s) : find_last_of s c = none := by
  have := find_last_of.scan_append [] s c hs s.length (le_refl _)
  simpa [find_last_of, find_last_of.scan] using this

theorem getElem?_append_cons (a b : Str) (c : Char) : (a ++ c :: b)[a.length]? = some c := by
  induction a with
  | nil => simp
  | cons x a ih => simpa using ih

theorem find_last_of_eq_some (p rest : Str) (c : Char) (hrest : c ∉ rest) :
    find_last_of (p ++ c :: rest) c = some p.length := by
  have := find_last_of.scan_append (p ++ [c]) rest c hrest rest.length (le_refl _)
  simp only [List.append_assoc, List.singleton_append, List.length_append,
    List.length_singleton] at this
  have hlen : (p ++ c :: rest).length = p.length + 1 + rest.length := by
    simp; omega
  unfold find_last_of
  rw [hlen, this]
  simp only [find_last_of.scan, getElem?_append_cons, if_true]

/-- A string has no `c` or splits at its last `c`. -/
theorem split_at_last (c : Char) :
    ∀ s : Str, c ∉ s ∨ ∃ p rest, s = p ++ c :: rest ∧ c ∉ rest
  | [] => Or.inl (by simp)
  | a :: s => by
    rcases split_at_last c s with h | ⟨p, rest, rfl, hrest⟩
    · by_cases hac : a = c
      · subst hac
        exact Or.inr ⟨[], s, rfl, h⟩
      · left
        simp only [List.mem_cons, not_or]
        exact ⟨fun h' => hac h'.symm, h⟩
    · exact Or.inr ⟨a :: p, rest, rfl, hrest⟩

theorem char_at_append (a b : Str) (c : Char) : char_at (a ++ c :: b) a.length = .ok c := by
  simp only [char_at, getElem?_append_cons]

theorem substr_append (a l t : Str) : substr (a ++ (l ++ t)) a.length l.length = .ok l := by
  unfold substr
  rw [if_pos (by simp), List.drop_left, List.take_left]

/-! ### The integer operations inside the range of `int` -/

theorem int_add_one (n : Nat) (h : n < INT_MAX) : int_add n 1 = .ok (n + 1) := by
  simp only [int_add, INT_MAX] at *
  rw [if_pos (by omega)]

theorem size_t_sub_eq (a b : Nat) (hb : b ≤ a) (ha : a < 2 ^ 64) :
    size_t_sub a b = a - b := by
  unfold size_t_sub
  omega

theorem size_t_to_int_pred (n : Nat) (h : n ≤ INT_MAX + 1) :
    size_t_to_int (size_t_sub n 1) = (n : Int) - 1 := by
  simp only [size_t_to_int, size_t_sub, INT_MAX] at *
  split <;> omega

theorem ReverseName.loop_succ (name : Str) (dot_pos last_dot_pos : Nat) (reverse_name : Str)
    (c : Char) (hc : char_at name dot_pos = .ok c) :
    ReverseName.loop name (dot_pos + 1) last_dot_pos reverse_name =
      if c = '.' then
        (int_add dot_pos 1).bind fun pos =>
          (substr name pos (size_t_sub (size_t_sub last_dot_pos dot_pos) 1)).bind fun label =>
            ReverseName.loop name dot_pos dot_pos (push_back reverse_name '.' ++ label)
      else if dot_pos = 0 then
        (substr name 0 last_dot_pos).bind fun label =>
          ReverseName.loop name dot_pos last_dot_pos (push_back reverse_name '.' ++ label)
      else ReverseName.loop name dot_pos last_dot_pos reverse_name := by
  rw [ReverseName.loop, hc]
  rfl

/-- As long as no separator is met at a position from `INT_MAX` on, the loop never leaves
the string, no `int` addition overflows, and what the loop appends is
`ReverseName.appended`. -/
theorem ReverseName.loop_eq (walked : Str) :
    ∀ (label tail reverse_name : Str),
      ('.' ∈ walked → walked.length ≤ INT_MAX ∧ walked.length + label.length < 2 ^ 64) →
      ReverseName.loop (walked.reverse ++ (label ++ tail)) walked.length
        (walked.length + label.length) reverse_name
        = .ok (reverse_name ++ ReverseName.appended walked label) := by
  induction walked with
  | nil => intro label tail reverse_name _; simp [ReverseName.loop, ReverseName.appended]
  | cons c walked ih =>
    intro label tail reverse_name hsafe
    have hname : (c :: walked).reverse ++ (label ++ tail)
        = walked.reverse ++ (c :: (label ++ tail)) := by simp
    have hchar : char_at ((c :: walked).reverse ++ (label ++ tail)) walked.length = .ok c := by
      rw [hname, ← List.length_reverse walked]
      exact char_at_append _ _ _
    rw [List.length_cons, ReverseName.loop_succ _ _ _ _ c hchar]
    by_cases hc : c = '.'
    · obtain ⟨hlen, hsize⟩ := hsafe (by simp [hc])
      rw [List.length_cons] at hlen hsize
      have hadd : int_add walked.length 1 = .ok (walked.length + 1) :=
        int_add_one _ (by omega)
      have hsub : substr ((c :: walked).reverse ++ (label ++ tail)) (walked.length + 1)
          (size_t_sub (size_t_sub (walked.length + 1 + label.length) walked.length) 1)
          = .ok label := by
        have h1 : size_t_sub (size_t_sub (walked.length + 1 + label.length) walked.length) 1
            = label.length := by
          rw [size_t_sub_eq _ _ (by omega) hsize, size_t_sub_eq _ _ (by omega) (by omega)]
          omega
        have h2 : walked.length + 1 = (c :: walked).reverse.length := by simp
        rw [h1, h2]
        exact substr_append _ _ _
      have := ih [] (c :: (label ++ tail)) (push_back reverse_name '.' ++ label)
        (fun _ => ⟨by omega, by simp only [List.length_nil]; omega⟩)
      rw [if_pos hc, hadd]
      simp only [Except.bind]
      rw [hsub, hname]
      simp only [List.nil_append, List.length_nil, Nat.add_zero] at this
      simp only [ReverseName.appended, if_pos hc]
      simpa [push_back] using this
    · rw [if_neg hc]
      by_cases hw : walked = []
      · subst hw
        have hsub : substr ([c].reverse ++ (label ++ tail)) 0
            (0 + 1 + label.length) = .ok (c :: label) := by
          have := substr_append [] (c :: label) tail
          simpa [Nat.add_comm] using this
        rw [List.length_nil, if_pos rfl, hsub]
        simp [Except.bind, ReverseName.loop, ReverseName.appended, hc, push_back]
      · have hlen : walked.length ≠ 0 := by
          intro h; exact hw (List.length_eq_zero.1 h)
        have := ih (c :: label) tail reverse_name (by
          intro hmem
          obtain ⟨h1, h2⟩ := hsafe (List.mem_cons_of_mem _ hmem)
          simp only [List.length_cons] at h1 h2 ⊢
          exact ⟨by omega, by omega⟩)
        rw [if_neg hlen, hname]
        simp only [List.length_cons, List.cons_append] at this
        rw [ReverseName.appended, if_neg hc, if_neg hw, ← this]
        congr 1
        omega

theorem ReverseName.body_of_not_mem (s : Str) (hs : '.' ∉ s) :
    ReverseName.body s = .ok (s ++ ['.']) := by
  simp [ReverseName.body, find_last_of_eq_none s '.' hs, push_back]

theorem substr_from_append (p rest : Str) :
    substr_from (p ++ '.' :: rest) (p.length + 1) = .ok rest := by
  have h : p ++ '.' :: rest = (p ++ ['.']) ++ rest := by simp
  unfold substr_from
  rw [if_pos (by simp), h, List.drop_left' (by simp)]

/-- The method on a name whose last separator is at a position that `int` holds, with no
other separator at a position from `INT_MAX` on. -/
theorem ReverseName.body_of_split (p rest : Str) (hrest : '.' ∉ rest)
    (hlast : p.length ≤ INT_MAX + 1) (hdots : '.' ∈ p → p.length ≤ INT_MAX) :
    ReverseName.body (p ++ '.' :: rest)
      = .ok (rest ++ ReverseName.appended p.reverse [] ++ ['.']) := by
  have hloop := ReverseName.loop_eq p.reverse [] ('.' :: rest) rest (by
    intro hmem
    have := hdots (List.mem_reverse.1 hmem)
    simp only [List.length_reverse, List.length_nil, INT_MAX] at this ⊢
    exact ⟨this, by omega⟩)
  simp only [List.reverse_reverse, List.nil_append, List.length_reverse, List.length_nil,
    Nat.add_zero] at hloop
  simp only [ReverseName.body, find_last_of_eq_some p rest '.' hrest, substr_from_append,
    bind, Except.bind, size_t_to_int_pred p.length hlast]
  by_cases hp : p.length = 0
  · have hnil : p = [] := List.length_eq_zero.1 hp
    subst hnil
    simp [ReverseName.appended, push_back]
  · have hnonneg : (0 : Int) ≤ (p.length : Int) - 1 := by omega
    have htoNat : ((p.length : Int) - 1).toNat + 1 = p.length := by omega
    rw [if_pos hnonneg, htoNat, hloop]
    simp [push_back]

/-- The method on a name whose last separator is at a position that converts to a negative
`int`: the loop is skipped, and the result is the last label alone. -/
theorem ReverseName.body_of_split_skipped (p rest : Str) (hrest : '.' ∉ rest)
    (hneg : size_t_to_int (size_t_sub p.length 1) < 0) :
    ReverseName.body (p ++ '.' :: rest) = .ok (rest ++ ['.']) := by
  simp only [ReverseName.body, find_last_of_eq_some p rest '.' hrest, substr_from_append,
    bind, Except.bind]
  rw [if_neg (by omega)]
  simp [push_back]

/-- The method on a name with a separator at position `INT_MAX` and the last separator
right after it: `dot_pos + 1` overflows. -/
theorem ReverseName.body_of_overflow (q rest : Str) (hrest : '.' ∉ rest)
    (hq : q.length = INT_MAX) :
    ReverseName.body (q ++ '.' :: '.' :: rest) = .error .SignedOverflow := by
  have hname : q ++ '.' :: '.' :: rest = (q ++ ['.']) ++ '.' :: rest := by simp
  have hlen : (q ++ ['.']).length = INT_MAX + 1 := by simp [hq]
  have hchar : char_at ((q ++ ['.']) ++ '.' :: rest) q.length = .ok '.' := by
    rw [List.append_assoc]
    exact char_at_append _ _ _
  have hconv : size_t_to_int (size_t_sub (INT_MAX + 1) 1) = (INT_MAX : Int) := by decide
  have hadd : int_add INT_MAX 1 = .error .SignedOverflow := by decide
  rw [hname]
  unfold ReverseName.body
  rw [find_last_of_eq_some (q ++ ['.']) rest '.' hrest]
  simp only [bind, Except.bind, substr_from_append]
  rw [hlen, hconv, if_pos (by decide), show (INT_MAX : Int).toNat = q.length by rw [hq]; rfl,
    ReverseName.loop_succ _ _ _ _ '.' hchar, if_pos rfl, hq, hadd]
  rfl

/-- `ReverseName` completes on every string whose length fits `int`. -/
theorem ReverseName_ok (name : Str) (hlen : name.length ≤ INT_MAX) :
    ∃ r, ReverseName name = .ok (r ++ ['.']) := by
  unfold ReverseName
  simp only
  have hs : (if ends_with name '.' = true then pop_back name else name).length ≤ INT_MAX := by
    split
    · simp only [pop_back, List.length_dropLast]; omega
    · exact hlen
  revert hs
  generalize (if ends_with name '.' = true then pop_back name else name) = s
  intro hs
  rcases split_at_last '.' s with h | ⟨p, rest, rfl, hrest⟩
  · exact ⟨s, ReverseName.body_of_not_mem s h⟩
  · have hp : p.length ≤ INT_MAX := by
      simp only [List.length_append, List.length_cons] at hs
      omega
    exact ⟨_, ReverseName.body_of_split p rest hrest (by omega) (fun _ => hp)⟩

/-! ## What the loop appends for well-formed labels -/

theorem ReverseName.appended_dot (walked label : Str) :
    ReverseName.appended ('.' :: walked) label
      = '.' :: label ++ ReverseName.appended walked [] := by
  simp [ReverseName.appended]

/-- Walking over a label that is not the first one only collects it. -/
theorem ReverseName.appended_label (l walked label : Str) (hl : '.' ∉ l) (hw : walked ≠ []) :
    ReverseName.appended (l ++ walked) label
      = ReverseName.appended walked (l.reverse ++ label) := by
  induction l generalizing label with
  | nil => rfl
  | cons c l ih =>
    simp only [List.mem_cons, not_or] at hl
    have hc : c ≠ '.' := fun h => hl.1 h.symm
    have hne : l ++ walked ≠ [] := by simp [hw]
    rw [List.cons_append, ReverseName.appended, if_neg hc, if_neg hne, ih _ hl.2]
    simp

/-- Walking over the first label appends it after a separator. -/
theorem ReverseName.appended_first (l label : Str) (hl : '.' ∉ l) (hne : l ≠ []) :
    ReverseName.appended l label = '.' :: l.reverse ++ label := by
  induction l generalizing label with
  | nil => exact absurd rfl hne
  | cons c l ih =>
    simp only [List.mem_cons, not_or] at hl
    have hc : c ≠ '.' := fun h => hl.1 h.symm
    by_cases hnil : l = []
    · subst hnil
      simp [ReverseName.appended, hc]
    · rw [ReverseName.appended, if_neg hc, if_neg hnil, ih _ hl.2 hnil]
      simp

/-- A separator in front of a name that starts with a label changes nothing. -/
theorem ReverseName.appended_leading_dot (walked label : Str) (hne : walked ≠ [])
    (hlast : walked.getLast? ≠ some '.') :
    ReverseName.appended (walked ++ ['.']) label = ReverseName.appended walked label := by
  induction walked generalizing label with
  | nil => exact absurd rfl hne
  | cons c walked ih =>
    by_cases hnil : walked = []
    · subst hnil
      have hc : c ≠ '.' := by simpa using hlast
      simp [ReverseName.appended, hc]
    · have hlast' : walked.getLast? ≠ some '.' := by
        obtain ⟨b, t, rfl⟩ := List.exists_cons_of_ne_nil hnil
        rwa [List.getLast?_cons_cons] at hlast
      have hne' : walked ++ ['.'] ≠ [] := by simp
      rw [List.cons_append, ReverseName.appended, ReverseName.appended, ih _ hnil hlast',
        ih _ hnil hlast', if_neg hne', if_neg hnil]

/-! ## The canonical form of a name made of well-formed labels -/

theorem intercalate_cons (first : Str) (more : List Str) :
    List.intercalate ['.'] (first :: more) = first ++ (more.map ('.' :: ·)).flatten := by
  induction more generalizing first with
  | nil => simp [List.intercalate]
  | cons l more ih =>
    have := ih l
    simp only [List.intercalate] at this ⊢
    simp [this]

theorem flatten_dot_shift (ls : List Str) :
    (ls.map ('.' :: ·)).flatten ++ ['.'] = '.' :: (ls.map (· ++ ['.'])).flatten := by
  induction ls with
  | nil => rfl
  | cons l ls ih => simp [ih]

/-- What the loop appends when it walks back over `first.l1. ... .lk`. -/
theorem ReverseName.appended_labels (first : Str) (hfirst : first ≠ [] ∧ '.' ∉ first)
    (ls : List Str) (hls : ∀ l ∈ ls, l ≠ [] ∧ '.' ∉ l) :
    ReverseName.appended (first ++ (ls.map ('.' :: ·)).flatten).reverse []
      = (ls.reverse.map ('.' :: ·)).flatten ++ '.' :: first := by
  induction ls using List.reverseRecOn with
  | nil =>
    have := ReverseName.appended_first first.reverse [] (by simpa using hfirst.2)
      (by simpa using hfirst.1)
    simpa using this
  | append_singleton ls l ih =>
    have hl := hls l (by simp)
    have ih := ih (fun x hx => hls x (by simp [hx]))
    have hrev : (first ++ ((ls ++ [l]).map ('.' :: ·)).flatten).reverse
        = l.reverse ++ '.' :: (first ++ (ls.map ('.' :: ·)).flatten).reverse := by
      simp
    rw [hrev, ReverseName.appended_label _ _ _ (by simpa using hl.2) (by simp),
      ReverseName.appended_dot, ih]
    simp

/-- The canonical form of `l1.l2. ... .ln` is `ln. ... .l2.l1.`, for a name whose length
fits `int`. -/
theorem ReverseName_labels (labels : List Str) (hne : labels ≠ [])
    (hlab : ∀ l ∈ labels, l ≠ [] ∧ '.' ∉ l)
    (hlen : (List.intercalate ['.'] labels).length ≤ INT_MAX) :
    ReverseName (List.intercalate ['.'] labels)
      = .ok (labels.reverse.map (· ++ ['.'])).flatten := by
  obtain ⟨first, more, rfl⟩ := List.exists_cons_of_ne_nil hne
  have hfirst := hlab first (List.mem_cons_self _ _)
  have hmore : ∀ l ∈ more, l ≠ [] ∧ '.' ∉ l := fun l hl => hlab l (List.mem_cons_of_mem _ hl)
  rw [intercalate_cons] at hlen ⊢
  induction more using List.reverseRecOn with
  | nil =>
    have hend : ends_with first '.' = false := by
      simp only [ends_with, decide_eq_false_iff_not]
      intro h
      exact hfirst.2 (List.mem_of_mem_getLast? h)
    simp only [ReverseName, List.map_nil, List.flatten_nil, List.append_nil, hend,
      Bool.false_eq_true, if_false]
    rw [ReverseName.body_of_not_mem first hfirst.2]
    simp
  | append_singleton init l _ =>
    have hl := hmore l (by simp)
    have hinit : ∀ x ∈ init, x ≠ [] ∧ '.' ∉ x := fun x hx => hmore x (by simp [hx])
    have hraw : first ++ ((init ++ [l]).map ('.' :: ·)).flatten
        = (first ++ (init.map ('.' :: ·)).flatten) ++ '.' :: l := by simp
    have hend : ends_with ((first ++ (init.map ('.' :: ·)).flatten) ++ '.' :: l) '.'
        = false := by
      simp only [ends_with, decide_eq_false_iff_not]
      intro h
      rw [List.getLast?_append_of_ne_nil _ (by simp)] at h
      obtain ⟨b, t, rfl⟩ := List.exists_cons_of_ne_nil hl.1
      rw [List.getLast?_cons_cons] at h
      exact hl.2 (List.mem_of_mem_getLast? h)
    rw [hraw] at hlen ⊢
    have hp : (first ++ (init.map ('.' :: ·)).flatten).length ≤ INT_MAX := by
      simp only [List.length_append, List.length_cons] at hlen
      simp only [List.length_append]
      omega
    simp only [ReverseName, hend, Bool.false_eq_true, if_false]
    rw [ReverseName.body_of_split _ l hl.2 (by omega) (fun _ => hp),
      ReverseName.appended_labels first hfirst init hinit]
    have := flatten_dot_shift (init.reverse ++ [first])
    simp only [List.map_append, List.flatten_append, List.map_cons, List.map_nil,
      List.flatten_cons, List.flatten_nil, List.append_nil, List.append_assoc,
      List.cons_append] at this
    simp only [List.map_reverse] at this
    simp [this]

/-! ## Separators at the ends of the raw name -/

theorem ReverseName_append_dot (s : Str) (hlast : s.getLast? ≠ some '.') :
    ReverseName (s ++ ['.']) = ReverseName s := by
  have h1 : ends_with (s ++ ['.']) '.' = true := by simp [ends_with]
  have h2 : ends_with s '.' = false := by simpa [ends_with] using hlast
  simp [ReverseName, h1, h2, pop_back]

theorem ReverseName.body_leading_dot (s : Str) (hne : s ≠ []) (hhead : s.head? ≠ some '.')
    (hlen : s.length < INT_MAX) :
    ReverseName.body ('.' :: s) = ReverseName.body s := by
  rcases split_at_last '.' s with h | ⟨p, rest, rfl, hrest⟩
  · have := ReverseName.body_of_split [] s h (by simp) (by simp)
    rw [ReverseName.body_of_not_mem s h]
    simpa [ReverseName.appended] using this
  · have hp : p ≠ [] := by
      rintro rfl
      simp at hhead
    have hhead' : p.reverse.getLast? ≠ some '.' := by
      obtain ⟨a, t, rfl⟩ := List.exists_cons_of_ne_nil hp
      simpa using hhead
    have hplen : p.length + 1 < INT_MAX := by
      simp only [List.length_append, List.length_cons] at hlen
      omega
    have := ReverseName.body_of_split ('.' :: p) rest hrest
      (by simp only [List.length_cons]; omega) (fun _ => by simp only [List.length_cons]; omega)
    rw [List.cons_append] at this
    rw [this, ReverseName.body_of_split p rest hrest (by omega) (fun _ => by omega),
      List.reverse_cons,
      ReverseName.appended_leading_dot _ _ (by simpa using hp) hhead']

theorem ReverseName_leading_dot (x : Str) (hne : x ≠ []) (hhead : x.head? ≠ some '.')
    (hlen : x.length < INT_MAX) :
    ReverseName ('.' :: x) = ReverseName x := by
  obtain ⟨a, t, rfl⟩ := List.exists_cons_of_ne_nil hne
  have ha : a ≠ '.' := by simpa using hhead
  cases t with
  | nil =>
    have h1 : ends_with ['.', a] '.' = false := by simp [ends_with, ha]
    have h2 : ends_with [a] '.' = false := by simp [ends_with, ha]
    simp only [ReverseName, h1, h2, Bool.false_eq_true, if_false]
    exact ReverseName.body_leading_dot [a] (by simp) (by simpa using ha) hlen
  | cons b t =>
    have h1 : ends_with ('.' :: a :: b :: t) '.' = ends_with (a :: b :: t) '.' := by
      simp [ends_with]
    simp only [ReverseName, h1]
    split
    · exact ReverseName.body_leading_dot _ (by simp [pop_back]) (by simpa [pop_back] using ha)
        (by simp only [pop_back, List.length_dropLast]; omega)
    · exact ReverseName.body_leading_dot _ (by simp) (by simpa using ha) hlen

theorem Domain.new_of_ne_nil (name : Str) (hne : name ≠ []) (r : Str)
    (h : ReverseName name = .ok r) : Domain.new name = .ok ⟨r⟩ := by
  have hlen : name.length > 0 := List.length_pos.2 hne
  simp [Domain.new, hlen, h, bind, Except.bind]

theorem Domain.isSubDomain_antisymm {a b : Domain} (hab : a.IsSubDomain b = true)
    (hba : b.IsSubDomain a = true) : a = b :=
  Domain.eq_of_not_lt (Domain.le_of_isSubDomain hab) (Domain.le_of_isSubDomain hba)

/-! ## Canonical forms as lists of labels -/

/-- Two texts that start with a label and its separator: the one is a prefix of the other
only if the labels agree. -/
theorem label_prefix (y x u v : Str) (hy : '.' ∉ y) (hx : '.' ∉ x)
    (h : y ++ '.' :: u <+: x ++ '.' :: v) : y = x ∧ u <+: v := by
  induction y generalizing x with
  | nil =>
    cases x with
    | nil => exact ⟨rfl, (List.prefix_cons_inj '.').1 h⟩
    | cons c x =>
      rw [List.nil_append, List.cons_append, List.cons_prefix_cons] at h
      simp only [List.mem_cons, not_or] at hx
      exact absurd h.1 hx.1
  | cons c y ih =>
    simp only [List.mem_cons, not_or] at hy
    cases x with
    | nil =>
      rw [List.nil_append, List.cons_append, List.cons_prefix_cons] at h
      exact absurd h.1.symm hy.1
    | cons d x =>
      simp only [List.mem_cons, not_or] at hx
      rw [List.cons_append, List.cons_append, List.cons_prefix_cons] at h
      obtain ⟨rfl, h⟩ := h
      obtain ⟨rfl, huv⟩ := ih x hy.2 hx.2 h
      exact ⟨rfl, huv⟩

/-- On labels without separator, the prefix order of the texts `l1.l2. ... .lk.` is the
prefix order of the lists of labels. -/
theorem flatten_labels_prefix_iff (ys xs : List Str) (hys : ∀ l ∈ ys, '.' ∉ l)
    (hxs : ∀ l ∈ xs, '.' ∉ l) :
    (ys.map (· ++ ['.'])).flatten <+: (xs.map (· ++ ['.'])).flatten ↔ ys <+: xs := by
  induction ys generalizing xs with
  | nil => simp
  | cons y ys ih =>
    cases xs with
    | nil => simp
    | cons x xs =>
      have hy := hys y (List.mem_cons_self _ _)
      have hx := hxs x (List.mem_cons_self _ _)
      have ih := ih xs (fun l hl => hys l (List.mem_cons_of_mem _ hl))
        (fun l hl => hxs l (List.mem_cons_of_mem _ hl))
      simp only [List.map_cons, List.flatten_cons, List.append_assoc, List.singleton_append]
      constructor
      · intro h
        obtain ⟨rfl, htail⟩ := label_prefix y x _ _ hy hx h
        exact (List.prefix_cons_inj y).2 (ih.1 htail)
      · intro h
        rw [List.cons_prefix_cons] at h
        obtain ⟨rfl, h⟩ := h
        have := (List.prefix_append_right_inj (y ++ ['.'])).2 (ih.2 h)
        simpa using this

theorem flatten_labels_inj (ys xs : List Str) (hys : ∀ l ∈ ys, '.' ∉ l)
    (hxs : ∀ l ∈ xs, '.' ∉ l)
    (h : (ys.map (· ++ ['.'])).flatten = (xs.map (· ++ ['.'])).flatten) : ys = xs := by
  have h1 := (flatten_labels_prefix_iff ys xs hys hxs).1 (h ▸ List.prefix_refl _)
  have h2 := (flatten_labels_prefix_iff xs ys hxs hys).1 (h ▸ List.prefix_refl _)
  exact h1.eq_of_length_le h2.length_le

theorem flatten_labels_eq_intercalate (labels : List Str) (hne : labels ≠ []) :
    (labels.map (· ++ ['.'])).flatten = List.intercalate ['.'] labels ++ ['.'] := by
  obtain ⟨first, more, rfl⟩ := List.exists_cons_of_ne_nil hne
  rw [intercalate_cons, List.append_assoc, flatten_dot_shift]
  simp

theorem intercalate_ne_nil (labels : List Str) (hne : labels ≠ [])
    (hlab : ∀ l ∈ labels, l ≠ [] ∧ '.' ∉ l) : List.intercalate ['.'] labels ≠ [] := by
  obtain ⟨first, more, rfl⟩ := List.exists_cons_of_ne_nil hne
  have hfirst := (hlab first (List.mem_cons_self _ _)).1
  rw [intercalate_cons]
  simp [hfirst]

theorem intercalate_getLast? (labels : List Str) (hne : labels ≠ [])
    (hlab : ∀ l ∈ labels, l ≠ [] ∧ '.' ∉ l) :
    (List.intercalate ['.'] labels).getLast? ≠ some '.' := by
  obtain ⟨first, more, rfl⟩ := List.exists_cons_of_ne_nil hne
  rw [intercalate_cons]
  induction more using List.reverseRecOn with
  | nil =>
    intro h
    exact (hlab first (List.mem_cons_self _ _)).2
      (List.mem_of_mem_getLast? (by simpa using h))
  | append_singleton init l _ =>
    have hl := hlab l (by simp)
    obtain ⟨b, t, rfl⟩ := List.exists_cons_of_ne_nil hl.1
    intro h
    simp only [List.map_append, List.map_cons, List.map_nil, List.flatten_append,
      List.flatten_cons, List.flatten_nil, List.append_nil] at h
    rw [← List.append_assoc, List.getLast?_append_of_ne_nil _ (by simp),
      List.getLast?_cons_cons] at h
    exact hl.2 (List.mem_of_mem_getLast? h)

theorem flatten_labels_reverse_length (labels : List Str) :
    (labels.reverse.map (· ++ ['.'])).flatten.length
      = (labels.map (· ++ ['.'])).flatten.length := by
  induction labels with
  | nil => rfl
  | cons l ls ih =>
    simp only [List.reverse_cons, List.map_append, List.flatten_append, List.length_append,
      List.map_cons, List.map_nil, List.flatten_cons, List.flatten_nil, List.length_nil,
      List.length_singleton, ih]
    omega

theorem intercalate_reverse_length (labels : List Str) (hne : labels ≠ []) :
    (List.intercalate ['.'] labels.reverse).length
      = (List.intercalate ['.'] labels).length := by
  have h1 := congrArg List.length (flatten_labels_eq_intercalate labels hne)
  have h2 := congrArg List.length
    (flatten_labels_eq_intercalate labels.reverse (by simpa using hne))
  rw [flatten_labels_reverse_length] at h2
  simp only [List.length_append, List.length_singleton] at h1 h2
  omega

/-- Canonicalizing the canonical form of `l1. ... .ln` gives `l1. ... .ln.`: the labels are
back in the order of the raw name. -/
theorem ReverseName_canonical (labels : List Str) (hne : labels ≠ [])
    (hlab : ∀ l ∈ labels, l ≠ [] ∧ '.' ∉ l)
    (hlen : (List.intercalate ['.'] labels).length ≤ INT_MAX) :
    ReverseName (labels.reverse.map (· ++ ['.'])).flatten
      = .ok (labels.map (· ++ ['.'])).flatten := by
  have hne' : labels.reverse ≠ [] := by simpa using hne
  have hlab' : ∀ l ∈ labels.reverse, l ≠ [] ∧ '.' ∉ l := fun l hl =>
    hlab l (List.mem_reverse.1 hl)
  have hlen' : (List.intercalate ['.'] labels.reverse).length ≤ INT_MAX := by
    rw [intercalate_reverse_length labels hne]
    exact hlen
  rw [flatten_labels_eq_intercalate _ hne',
    ReverseName_append_dot _ (intercalate_getLast? _ hne' hlab'),
    ReverseName_labels _ hne' hlab' hlen', List.reverse_reverse]

/-! ## More on the stored sequence -/

/-- Two stored elements of which one is a sub-domain of the other are the same element. -/
theorem stored_eq_of_isSubDomain (S : List Domain) {a b : Domain}
    (ha : a ∈ (DomainChecker.new S).forbidden_domains_)
    (hb : b ∈ (DomainChecker.new S).forbidden_domains_) (h : a.IsSubDomain b = true) :
    a = b := by
  obtain ⟨i, hi⟩ := List.mem_iff_getElem?.1 ha
  obtain ⟨j, hj⟩ := List.mem_iff_getElem?.1 hb
  by_cases hij : i = j
  · subst hij
    rw [hi] at hj
    exact Option.some.inj hj
  · have := stored_not_isSubDomain S hij hi hj
    rw [h] at this
    cases this

/-- The stored sequence is strictly increasing. -/
theorem stored_strict (S : List Domain) :
    (DomainChecker.new S).forbidden_domains_.Pairwise (fun a b => a.lt b = true) := by
  refine List.Pairwise.imp₂ ?_ (stored_sorted S) (stored_pairwise S)
  intro a b hle hsub
  by_contra hlt
  have hab : a = b := Domain.eq_of_not_lt (by simpa using hlt) hle
  subst hab
  rw [Domain.isSubDomain_refl] at hsub
  cases hsub

theorem sort_eq_self (l : List Domain) (hs : l.Pairwise (fun a b => b.lt a = false)) :
    sort l = l :=
  (sort_eq_of_perm_of_sorted l l (List.Perm.refl _) hs).symm

theorem unique.scan_eq_self (pred : Domain → Domain → Bool) (dest : Domain) (l : List Domain)
    (hc : List.Chain (fun a b => pred a b = false) dest l) : unique.scan pred dest l = l := by
  induction l generalizing dest with
  | nil => rfl
  | cons x xs ih =>
    rw [List.chain_cons] at hc
    rw [unique.scan, hc.1, ih x hc.2]
    simp

theorem unique_eq_self (pred : Domain → Domain → Bool) (l : List Domain)
    (hc : List.Chain' (fun a b => pred a b = false) l) : unique pred l = l := by
  cases l with
  | nil => rfl
  | cons x xs => rw [unique, unique.scan_eq_self pred x xs hc]

theorem unique_chain' (pred : Domain → Domain → Bool) (l : List Domain) :
    List.Chain' (fun a b => pred a b = false) (unique pred l) := by
  cases l with
  | nil => exact List.chain'_nil
  | cons x xs => exact unique.scan_chain pred x xs

/-- Input lists with the same elements give the same stored sequence. -/
theorem stored_eq_of_same_elements (S1 S2 : List Domain) (h : ∀ d, d ∈ S1 ↔ d ∈ S2) :
    (DomainChecker.new S1).forbidden_domains_ = (DomainChecker.new S2).forbidden_domains_ := by
  have hmem : ∀ (A B : List Domain), (∀ d, d ∈ A ↔ d ∈ B) →
      ∀ D, D ∈ (DomainChecker.new A).forbidden_domains_ →
        D ∈ (DomainChecker.new B).forbidden_domains_ := by
    intro A B hAB D hD
    obtain ⟨r, hr, hDr⟩ := stored_cover B ((hAB D).1 (stored_subset A hD))
    obtain ⟨r', hr', hrr'⟩ := stored_cover A ((hAB r).2 (stored_subset B hr))
    have hDr' := stored_eq_of_isSubDomain A hD hr' (Domain.isSubDomain_trans hDr hrr')
    subst hDr'
    have := Domain.isSubDomain_antisymm hDr hrr'
    subst this
    exact hr
  have hnodup : ∀ A : List Domain, (DomainChecker.new A).forbidden_domains_.Nodup := by
    intro A
    refine List.Pairwise.imp ?_ (stored_strict A)
    intro a b hlt hab
    subst hab
    rw [Domain.lt_irrefl] at hlt
    cases hlt
  have hperm := (List.perm_ext_iff_of_nodup (hnodup S1) (hnodup S2)).2
    (fun d => ⟨hmem S1 S2 h d, hmem S2 S1 (fun d => (h d).symm) d⟩)
  haveI : IsAntisymm Domain (fun a b => b.lt a = false) :=
    ⟨fun a b h1 h2 => Domain.eq_of_not_lt h2 h1⟩
  exact List.eq_of_perm_of_sorted hperm (stored_sorted S1) (stored_sorted S2)

/-! ## Names that do not fit `int` -/

theorem long_label_length (n : Nat) : (long_label n).length = n :=
  List.length_replicate n 'x'

theorem not_mem_long_label (n : Nat) : '.' ∉ long_label n := by
  intro h
  have := List.eq_of_mem_replicate h
  revert this
  decide

theorem long_label_ne_nil (n : Nat) (hn : n ≠ 0) : long_label n ≠ [] := by
  intro h
  have := long_label_length n
  rw [h] at this
  exact hn this.symm

theorem ends_with_append (a rest : Str) (hne : rest ≠ []) (hrest : '.' ∉ rest) :
    ends_with (a ++ rest) '.' = false := by
  simp only [ends_with, decide_eq_false_iff_not]
  intro h
  rw [List.getLast?_append_of_ne_nil _ hne] at h
  exact hrest (List.mem_of_mem_getLast? h)

theorem ReverseName_of_ends (a rest : Str) (hne : rest ≠ []) (hrest : '.' ∉ rest) :
    ReverseName (a ++ rest) = ReverseName.body (a ++ rest) := by
  simp only [ReverseName, ends_with_append a rest hne hrest, Bool.false_eq_true, if_false]

/-- A name `p.rest` whose separator is at a position that converts to a negative `int`: the
canonical form is `rest.` alone. -/
theorem ReverseName_skipped (p rest : Str) (hne : rest ≠ []) (hrest : '.' ∉ rest)
    (hneg : size_t_to_int (size_t_sub p.length 1) < 0) :
    ReverseName (p ++ '.' :: rest) = .ok (rest ++ ['.']) := by
  have h := ReverseName_of_ends (p ++ ['.']) rest hne hrest
  simp only [List.append_assoc, List.singleton_append] at h
  rw [h, ReverseName.body_of_split_skipped p rest hrest hneg]

/-- A name `p.rest` of two labels whose separator is at a position up to `INT_MAX + 1`. -/
theorem ReverseName_two_labels (p rest : Str) (hp : p ≠ []) (hpdot : '.' ∉ p)
    (hne : rest ≠ []) (hrest : '.' ∉ rest) (hlen : p.length ≤ INT_MAX + 1) :
    ReverseName (p ++ '.' :: rest) = .ok (rest ++ '.' :: p ++ ['.']) := by
  have h := ReverseName_of_ends (p ++ ['.']) rest hne hrest
  simp only [List.append_assoc, List.singleton_append] at h
  rw [h, ReverseName.body_of_split p rest hrest hlen
    (fun hmem => absurd hmem hpdot),
    ReverseName.appended_first p.reverse [] (by simpa using hpdot) (by simpa using hp)]
  simp

/-- A name with a separator at position `INT_MAX` and the last separator right after it. -/
theorem ReverseName_overflow (q rest : Str) (hne : rest ≠ []) (hrest : '.' ∉ rest)
    (hq : q.length = INT_MAX) :
    ReverseName (q ++ '.' :: '.' :: rest) = .error .SignedOverflow := by
  have h := ReverseName_of_ends (q ++ ['.', '.']) rest hne hrest
  simp only [List.append_assoc, List.cons_append, List.nil_append] at h
  rw [h, ReverseName.body_of_overflow q rest hrest hq]

theorem Domain.new_of_error (name : Str) (hne : name ≠ []) (e : Failure)
    (h : ReverseName name = .error e) : Domain.new name = .error e := by
  have hlen : name.length > 0 := List.length_pos.2 hne
  simp [Domain.new, hlen, h, bind, Except.bind]

theorem intercalate_pair (l r : Str) : List.intercalate ['.'] [l, r] = l ++ '.' :: r := by
  simp [List.intercalate]

theorem dom_b : dom "b." = ⟨['b', '.']⟩ := by
  decide

/-- The name `x...x.b` with `2^31 + 1` characters `x` has the canonical form `b.`. -/
theorem Domain.new_long_label_b :
    Domain.new (List.intercalate ['.'] [long_label (2 ^ 31 + 1), ['b']]) = .ok (dom "b.") := by
  rw [intercalate_pair, dom_b]
  refine Domain.new_of_ne_nil _ (by simp) _ ?_
  refine ReverseName_skipped (long_label (2 ^ 31 + 1)) ['b'] (by simp) (by decide) ?_
  rw [long_label_length]
  decide

theorem canonical_pair (l r : Str) :
    ([l, r].reverse.map (· ++ ['.'])).flatten = r ++ '.' :: (l ++ ['.']) := by
  simp

theorem dom_b_ne_long (l : Str) :
    (⟨['b', '.']⟩ : Domain).GetReversedName ≠ ['b'] ++ '.' :: (l ++ ['.']) := by
  simp [Domain.GetReversedName]

theorem dom_b_ne_raw (l : Str) :
    (⟨['b', '.']⟩ : Domain).GetReversedName ≠ (l ++ '.' :: ['b']) ++ ['.'] := by
  intro h
  have := congrArg List.length h
  simp [Domain.GetReversedName] at this

theorem long_eq_dom_b (l : Str) :
    (⟨'b' :: '.' :: (l ++ ['.'])⟩ : Domain).eq ⟨['b', '.']⟩ = false := by
  simp [Domain.eq]

theorem not_suffix_pair (l : Str) : ¬ [l, ['b']] <:+ [['b']] := by
  intro h
  have := h.length_le
  simp at this

/-- The function `TestReverseName`: all its assertions hold. -/
theorem TestReverseName :
    [Domain.new "asda.asda.ds".toList, Domain.new "asda.asda.ds.".toList,
      Domain.new ".asda.asda.ds".toList, Domain.new "jhfds".toList,
      Domain.new ".jhfds.".toList, Domain.new "jhfds.".toList, Domain.new ".jhfds".toList]
      = [.ok (dom "ds.asda.asda."), .ok (dom "ds.asda.asda."), .ok (dom "ds.asda.asda."),
        .ok (dom "jhfds."), .ok (dom "jhfds."), .ok (dom "jhfds."), .ok (dom "jhfds.")] := by
  decide

/-- The function `TestEqual`: all its assertions hold. -/
theorem TestEqual :
    (do
      let domain1 ← Domain.new "asda.asda.ds".toList
      let domain2 ← Domain.new "asda.asda.ds.".toList
      let domain4 ← Domain.new "jhfds".toList
      pure [domain1.eq domain1, domain1.eq domain2, domain1.ne domain4])
      = Except.ok (ε := Failure) [true, true, true] := by
  decide

/-- The function `TestSubDomains`: all its assertions hold. -/
theorem TestSubDomains :
    (do
      let domain1 ← Domain.new "asda.asda.ds".toList
      let domain2 ← Domain.new "asda.ds".toList
      let domain3 ← Domain.new "ds".toList
      let domain4 ← Domain.new "jhfds.dasds".toList
      pure [domain2.IsSubDomain domain3, domain1.IsSubDomain domain2,
        domain1.IsSubDomain domain3, !domain4.IsSubDomain domain3])
      = Except.ok (ε := Failure) [true, true, true, true] := by
  decide

/-- The function `TestBefore`: all its assertions hold. -/
theorem TestBefore :
    (do
      let domain1 ← Domain.new "asda.asda.ds".toList
      let domain2 ← Domain.new "asda.ds".toList
      let domain3 ← Domain.new "ds".toList
      let domain4 ← Domain.new "jhfds.dasds".toList
      pure [domain2.lt domain1, domain3.lt domain2, domain3.lt domain1, domain4.lt domain3])
      = Except.ok (ε := Failure) [true, true, true, true] := by
  decide

/-- The function `TestForbidden`: all its assertions hold. -/
theorem TestForbidden :
    (do
      let domain1 ← Domain.new "asda.asda.ds".toList
      let domain2 ← Domain.new "asda.ds".toList
      let domain3 ← Domain.new "as.ds".toList
      let domain4 ← Domain.new "ds".toList
      let domain5 ← Domain.new "jhfds.dasds".toList
      let domain6 ← Domain.new "dasds".toList
      let checker := DomainChecker.new [domain2, domain6]
      pure [checker.IsForbidden domain1, checker.IsForbidden domain2,
        !checker.IsForbidden domain3, !checker.IsForbidden domain4,
        checker.IsForbidden domain5, checker.IsForbidden domain6])
      = Except.ok (ε := Failure) [true, true, true, true, true, true] := by
  decide

/-! ## The claims of the specification -/

/-- C1: a candidate is reported forbidden exactly when it is a sub-domain of (or equal to)
some domain of the original input list, whatever duplicates or nested domains the list
holds. -/
theorem isForbidden_iff_exists_input (S : List Domain) (D : Domain) :
    (DomainChecker.new S).IsForbidden D = true ↔ ∃ E ∈ S, D.IsSubDomain E = true := by
  rw [isForbidden_iff_stored]
  constructor
  · rintro ⟨E, hE, h⟩
    exact ⟨E, stored_subset S hE, h⟩
  · rintro ⟨E, hE, h⟩
    obtain ⟨r, hr, hEr⟩ := stored_cover S hE
    exact ⟨r, hr, Domain.isSubDomain_trans h hEr⟩

/-- C2: the query, which looks only at the stored element just before the `upper_bound`
position, answers true exactly when some stored element is an ancestor of (or equal to) the
candidate. -/
theorem isForbidden_iff_exists_stored (S : List Domain) (D : Domain) :
    (DomainChecker.new S).IsForbidden D = true ↔
      ∃ E ∈ (DomainChecker.new S).forbidden_domains_, D.IsSubDomain E = true :=
  isForbidden_iff_stored S D

/-- For non-empty labels without separator and a name whose length fits `int`, the canonical
form of `l1.l2. ... .ln` is the labels in reverse order, each followed by one separator. -/
theorem reversed_name_of_labels (labels : List Str) (hne : labels ≠ [])
    (hlab : ∀ l ∈ labels, l ≠ [] ∧ '.' ∉ l)
    (hlen : (List.intercalate ['.'] labels).length ≤ INT_MAX) :
    ∃ d, Domain.new (List.intercalate ['.'] labels) = .ok d ∧
      d.GetReversedName = (labels.reverse.map (· ++ ['.'])).flatten :=
  ⟨⟨_⟩, Domain.new_of_ne_nil _ (intercalate_ne_nil labels hne hlab) _
    (ReverseName_labels labels hne hlab hlen), rfl⟩

theorem reversed_name_of_labels_witness :
    (["asda".toList, "asda".toList, "ds".toList] ≠ [] ∧
      (∀ l ∈ ["asda".toList, "asda".toList, "ds".toList], l ≠ [] ∧ '.' ∉ l) ∧
      (List.intercalate ['.'] ["asda".toList, "asda".toList, "ds".toList]).length ≤ INT_MAX) ∧
    ∃ d, Domain.new "asda.asda.ds".toList = .ok d ∧
      d.GetReversedName = "ds.asda.asda.".toList :=
  ⟨⟨by decide, by decide, by decide⟩,
    reversed_name_of_labels ["asda".toList, "asda".toList, "ds".toList] (by decide)
      (by decide) (by decide)⟩

/-- C3, on the code, at a name that does not fit `int`: for the two labels `x...x` (`2^31 + 1`
characters) and `b` the separator is at position `2^31 + 1`, `dot_pos` converts to a negative
`int`, the loop is skipped, and the canonical form is `b.` instead of `b.x...x.`. -/
theorem reversed_name_of_long_labels :
    Domain.new (List.intercalate ['.'] [long_label (2 ^ 31 + 1), ['b']]) = .ok (dom "b.") ∧
    (dom "b.").GetReversedName
      ≠ ([long_label (2 ^ 31 + 1), ['b']].reverse.map (· ++ ['.'])).flatten := by
  refine ⟨Domain.new_long_label_b, ?_⟩
  rw [canonical_pair, dom_b]
  exact dom_b_ne_long _

/-- C4: in the stored sequence no element is a sub-domain of an element at another position;
in particular no two stored elements are equal. -/
theorem stored_minimal (S : List Domain) (i j : Nat) (a b : Domain) (hij : i ≠ j)
    (hi : (DomainChecker.new S).forbidden_domains_[i]? = some a)
    (hj : (DomainChecker.new S).forbidden_domains_[j]? = some b) :
    a.IsSubDomain b = false ∧ a.eq b = false := by
  have h := stored_not_isSubDomain S hij hi hj
  refine ⟨h, ?_⟩
  simp only [Domain.eq, decide_eq_false_iff_not]
  intro heq
  have : a = b := by cases a; cases b; simpa using heq
  subst this
  rw [Domain.isSubDomain_refl] at h
  cases h

theorem stored_minimal_witness :
    (1 ≠ 0 ∧
      (DomainChecker.new [dom "c.b.a.", dom "c.b.", dom "c.b.", dom "a."]).forbidden_domains_[1]?
        = some (dom "c.b.") ∧
      (DomainChecker.new [dom "c.b.a.", dom "c.b.", dom "c.b.", dom "a."]).forbidden_domains_[0]?
        = some (dom "a.")) ∧
    ((dom "c.b.").IsSubDomain (dom "a.") = false ∧ (dom "c.b.").eq (dom "a.") = false) :=
  ⟨⟨by decide, by decide, by decide⟩,
    stored_minimal [dom "c.b.a.", dom "c.b.", dom "c.b.", dom "a."] 1 0 (dom "c.b.") (dom "a.")
      (by decide) (by decide) (by decide)⟩

/-- C5: every domain of the input list is reported forbidden, because the collapse step
drops an element only when a retained element is its ancestor. -/
theorem input_isForbidden (S : List Domain) (D : Domain) (hD : D ∈ S) :
    (DomainChecker.new S).IsForbidden D = true ∧
      ∃ E ∈ (DomainChecker.new S).forbidden_domains_, D.IsSubDomain E = true :=
  ⟨(isForbidden_iff_stored S D).2 (stored_cover S hD), stored_cover S hD⟩

theorem input_isForbidden_witness :
    dom "c.b.a." ∈ [dom "c.b.a.", dom "c.b.", dom "c.b.", dom "a."] ∧
    ((DomainChecker.new [dom "c.b.a.", dom "c.b.", dom "c.b.", dom "a."]).IsForbidden
        (dom "c.b.a.") = true ∧
      ∃ E ∈ (DomainChecker.new [dom "c.b.a.", dom "c.b.", dom "c.b.", dom "a."]).forbidden_domains_,
        (dom "c.b.a.").IsSubDomain E = true) :=
  ⟨by decide,
    input_isForbidden [dom "c.b.a.", dom "c.b.", dom "c.b.", dom "a."] (dom "c.b.a.")
      (by decide)⟩

/-- C6: the stored sequence holds exactly the input domains that have no proper ancestor in
the input. -/
theorem mem_stored_iff (S : List Domain) (D : Domain) :
    D ∈ (DomainChecker.new S).forbidden_domains_ ↔
      D ∈ S ∧ ¬ ∃ E ∈ S, E.ne D = true ∧ D.IsSubDomain E = true := by
  constructor
  · intro hD
    refine ⟨stored_subset S hD, ?_⟩
    rintro ⟨E, hE, hne, hsub⟩
    obtain ⟨r, hr, hEr⟩ := stored_cover S hE
    have hDr := Domain.isSubDomain_trans hsub hEr
    obtain ⟨i, hi⟩ := List.mem_iff_getElem?.1 hD
    obtain ⟨j, hj⟩ := List.mem_iff_getElem?.1 hr
    by_cases hij : i = j
    · subst hij
      rw [hi] at hj
      cases hj
      have := Domain.isSubDomain_antisymm hsub hEr
      subst this
      simp [Domain.ne, Domain.eq] at hne
    · have := stored_not_isSubDomain S hij hi hj
      rw [hDr] at this
      cases this
  · rintro ⟨hD, hnone⟩
    obtain ⟨r, hr, hDr⟩ := stored_cover S hD
    by_cases hrD : r = D
    · subst hrD
      exact hr
    · exfalso
      apply hnone
      refine ⟨r, stored_subset S hr, ?_, hDr⟩
      simp only [Domain.ne, Domain.eq, Bool.not_eq_true', decide_eq_false_iff_not]
      intro h
      apply hrD
      cases r; cases D; simpa using h

/-- For a raw string whose length fits `int`: the construction of a `Domain` fails exactly on
the empty string, where it violates the asserted precondition; on every other string
`ReverseName` completes without leaving the string and without overflow, and a `Domain`
results. -/
theorem domain_new_fails_iff_empty (name : Str) (hlen : name.length ≤ INT_MAX) :
    (Domain.new name = .error .InvalidInput ↔ name = []) ∧
    ((∃ d, Domain.new name = .ok d) ↔ name ≠ []) ∧
    (∃ r, ReverseName name = .ok r) := by
  obtain ⟨r, hr⟩ := ReverseName_ok name hlen
  refine ⟨?_, ?_, ⟨_, hr⟩⟩
  · constructor
    · intro h
      by_contra hne
      rw [Domain.new_of_ne_nil name hne _ hr] at h
      cases h
    · rintro rfl
      rfl
  · constructor
    · rintro ⟨d, hd⟩ rfl
      cases hd
    · intro hne
      exact ⟨_, Domain.new_of_ne_nil name hne _ hr⟩

/-- C7, on the code, at a raw string that does not fit `int`: in `x...x..b` with `2^31 - 1`
characters `x` the last separator is at position `2^31`, so `dot_pos` starts at `INT_MAX`,
the character there is a separator, and `dot_pos + 1` overflows `int`: the construction of
the `Domain` of this non-empty string does not complete. -/
theorem domain_new_signed_overflow :
    long_label INT_MAX ++ '.' :: '.' :: ['b'] ≠ [] ∧
    Domain.new (long_label INT_MAX ++ '.' :: '.' :: ['b']) = .error .SignedOverflow :=
  ⟨List.append_ne_nil_of_right_ne_nil _ (List.cons_ne_nil _ _),
    Domain.new_of_error _ (List.append_ne_nil_of_right_ne_nil _ (List.cons_ne_nil _ _)) _
      (ReverseName_overflow (long_label INT_MAX) ['b'] (List.cons_ne_nil _ _) (by decide)
        (long_label_length INT_MAX))⟩

/-- C9: a raw string that does not end with the separator and the same string followed by
one separator give the same outcome of the construction, so the two domains are equal; and
both domains exist for every string whose length fits `int`. -/
theorem domain_eq_append_dot (s : Str) (hne : s ≠ []) (hlast : s.getLast? ≠ some '.') :
    Domain.new (s ++ ['.']) = Domain.new s ∧
    (∀ d1 d2, Domain.new s = .ok d1 → Domain.new (s ++ ['.']) = .ok d2 → d1.eq d2 = true) ∧
    (s.length ≤ INT_MAX →
      ∃ d1 d2, Domain.new s = .ok d1 ∧ Domain.new (s ++ ['.']) = .ok d2 ∧
        d1.eq d2 = true) := by
  have hsame : Domain.new (s ++ ['.']) = Domain.new s := by
    have h1 : (s ++ ['.']).length > 0 := by simp
    have h2 : s.length > 0 := List.length_pos.2 hne
    simp only [Domain.new, h1, h2, if_true, ReverseName_append_dot s hlast]
  refine ⟨hsame, ?_, ?_⟩
  · intro d1 d2 h1 h2
    rw [hsame, h1] at h2
    cases h2
    simp [Domain.eq]
  · intro hlen
    obtain ⟨r, hr⟩ := ReverseName_ok s hlen
    have hd := Domain.new_of_ne_nil s hne _ hr
    exact ⟨_, _, hd, hsame ▸ hd, by simp [Domain.eq]⟩

theorem domain_eq_append_dot_witness :
    ("asda.asda.ds".toList ≠ [] ∧ "asda.asda.ds".toList.getLast? ≠ some '.') ∧
    (Domain.new "asda.asda.ds.".toList = Domain.new "asda.asda.ds".toList ∧
      (∀ d1 d2, Domain.new "asda.asda.ds".toList = .ok d1 →
        Domain.new "asda.asda.ds.".toList = .ok d2 → d1.eq d2 = true) ∧
      ("asda.asda.ds".toList.length ≤ INT_MAX →
        ∃ d1 d2, Domain.new "asda.asda.ds".toList = .ok d1 ∧
          Domain.new "asda.asda.ds.".toList = .ok d2 ∧ d1.eq d2 = true)) :=
  ⟨⟨by decide, by decide⟩, domain_eq_append_dot "asda.asda.ds".toList (by decide) (by decide)⟩

/-- For a raw string whose length stays below `INT_MAX`: a string that starts with a label
and the same string behind one leading separator give equal domains. -/
theorem domain_eq_leading_dot (x : Str) (hne : x ≠ []) (hhead : x.head? ≠ some '.')
    (hlen : x.length < INT_MAX) :
    ∃ d1 d2, Domain.new ('.' :: x) = .ok d1 ∧ Domain.new x = .ok d2 ∧ d1.eq d2 = true := by
  obtain ⟨r, hr⟩ := ReverseName_ok x (by omega)
  refine ⟨⟨r ++ ['.']⟩, ⟨r ++ ['.']⟩, Domain.new_of_ne_nil ('.' :: x) (by simp) _ ?_,
    Domain.new_of_ne_nil x hne _ hr, by simp [Domain.eq]⟩
  rw [ReverseName_leading_dot x hne hhead hlen, hr]

theorem domain_eq_leading_dot_witness :
    ("asda.asda.ds".toList ≠ [] ∧ "asda.asda.ds".toList.head? ≠ some '.' ∧
      "asda.asda.ds".toList.length < INT_MAX) ∧
    ∃ d1 d2, Domain.new ".asda.asda.ds".toList = .ok d1 ∧
      Domain.new "asda.asda.ds".toList = .ok d2 ∧ d1.eq d2 = true :=
  ⟨⟨by decide, by decide, by decide⟩,
    domain_eq_leading_dot "asda.asda.ds".toList (by decide) (by decide) (by decide)⟩

/-- C10, on the code, at a raw string that does not fit `int`: for `x = x...x.b` with `2^31`
characters `x` the loop runs for `Domain(x)` (`dot_pos` starts at `INT_MAX`) and gives
`b.x...x.`, but is skipped for `Domain("." + x)` (`dot_pos` converts to a negative `int`),
which gives `b.`: the two domains differ. -/
theorem domain_ne_leading_dot_long :
    Domain.new (long_label (2 ^ 31) ++ '.' :: ['b'])
      = .ok ⟨'b' :: '.' :: (long_label (2 ^ 31) ++ ['.'])⟩ ∧
    Domain.new ('.' :: (long_label (2 ^ 31) ++ '.' :: ['b'])) = .ok ⟨['b', '.']⟩ ∧
    (⟨'b' :: '.' :: (long_label (2 ^ 31) ++ ['.'])⟩ : Domain).eq ⟨['b', '.']⟩ = false := by
  refine ⟨?_, ?_, long_eq_dom_b _⟩
  · refine Domain.new_of_ne_nil _
      (List.append_ne_nil_of_right_ne_nil _ (List.cons_ne_nil _ _)) _ ?_
    have h := ReverseName_two_labels (long_label (2 ^ 31)) ['b']
      (long_label_ne_nil _ (by decide)) (not_mem_long_label _) (List.cons_ne_nil _ _)
      (by decide) (by rw [long_label_length]; decide)
    rw [h]
    rfl
  · refine Domain.new_of_ne_nil _ (List.cons_ne_nil _ _) _ ?_
    rw [← List.cons_append]
    refine ReverseName_skipped ('.' :: long_label (2 ^ 31)) ['b'] (List.cons_ne_nil _ _)
      (by decide) ?_
    rw [List.length_cons, long_label_length]
    decide

/-- C11, as stated, fails: the canonical form of `a.b` is `b.a.`, and the domain constructed
from `b.a.` has the canonical form `a.b.`, which is a different domain. -/
theorem canonical_form_not_fixed_counterexample :
    Domain.new "a.b".toList = .ok (dom "b.a.") ∧
    Domain.new (dom "b.a.").GetReversedName = .ok (dom "a.b.") ∧
    (dom "a.b.").eq (dom "b.a.") = false := by
  decide

/-- C11, amended: for a name `l1. ... .ln` of non-empty labels without separator whose length
fits `int`, the domain constructed from the canonical form has the canonical form
`l1. ... .ln.`, the labels back in the order of the raw name, and it equals the original
domain exactly when the list of labels reads the same in both directions. -/
theorem canonical_form_fixed_iff_palindrome (labels : List Str) (hne : labels ≠ [])
    (hlab : ∀ l ∈ labels, l ≠ [] ∧ '.' ∉ l)
    (hlen : (List.intercalate ['.'] labels).length ≤ INT_MAX) :
    ∃ d d', Domain.new (List.intercalate ['.'] labels) = .ok d ∧
      Domain.new d.GetReversedName = .ok d' ∧
      d'.GetReversedName = (labels.map (· ++ ['.'])).flatten ∧
      (d'.eq d = true ↔ labels.reverse = labels) := by
  have hcanon : (labels.reverse.map (· ++ ['.'])).flatten ≠ [] := by
    rw [flatten_labels_eq_intercalate _ (by simpa using hne)]
    simp
  refine ⟨⟨_⟩, ⟨_⟩,
    Domain.new_of_ne_nil _ (intercalate_ne_nil labels hne hlab) _
      (ReverseName_labels labels hne hlab hlen),
    Domain.new_of_ne_nil _ hcanon _ (ReverseName_canonical labels hne hlab hlen), rfl, ?_⟩
  simp only [Domain.eq, decide_eq_true_eq]
  constructor
  · intro h
    exact (flatten_labels_inj _ _ (fun l hl => (hlab l hl).2)
      (fun l hl => (hlab l (List.mem_reverse.1 hl)).2) h).symm
  · intro h
    rw [h]

theorem canonical_form_fixed_iff_palindrome_witness :
    (["b".toList, "a".toList, "b".toList] ≠ [] ∧
      (∀ l ∈ ["b".toList, "a".toList, "b".toList], l ≠ [] ∧ '.' ∉ l) ∧
      (List.intercalate ['.'] ["b".toList, "a".toList, "b".toList]).length ≤ INT_MAX) ∧
    ∃ d d', Domain.new "b.a.b".toList = .ok d ∧
      Domain.new d.GetReversedName = .ok d' ∧
      d'.GetReversedName = "b.a.b.".toList ∧
      (d'.eq d = true ↔
        ["b".toList, "a".toList, "b".toList].reverse = ["b".toList, "a".toList, "b".toList]) :=
  ⟨⟨by decide, by decide, by decide⟩,
    canonical_form_fixed_iff_palindrome ["b".toList, "a".toList, "b".toList] (by decide)
      (by decide) (by decide)⟩

/-- C12: building a checker from the stored sequence of a checker gives the same stored
sequence, element by element. -/
theorem domainChecker_new_idempotent (S : List Domain) :
    (DomainChecker.new (DomainChecker.new S).forbidden_domains_).forbidden_domains_
      = (DomainChecker.new S).forbidden_domains_ := by
  have hsort := sort_eq_self _ (stored_sorted S)
  have huniq := unique_eq_self sub_domain_comp _ (unique_chain' sub_domain_comp (sort S))
  show unique sub_domain_comp (sort (DomainChecker.new S).forbidden_domains_) = _
  rw [hsort]
  exact huniq

/-- For names made of non-empty labels without separator whose lengths fit `int`, the prefix
test on canonical forms holds exactly when the labels of the second name are a suffix of the
labels of the first. -/
theorem isSubDomain_iff_label_suffix (a b : List Str) (ha : a ≠ []) (hb : b ≠ [])
    (hla : ∀ l ∈ a, l ≠ [] ∧ '.' ∉ l) (hlb : ∀ l ∈ b, l ≠ [] ∧ '.' ∉ l)
    (hlena : (List.intercalate ['.'] a).length ≤ INT_MAX)
    (hlenb : (List.intercalate ['.'] b).length ≤ INT_MAX) :
    ∃ da db, Domain.new (List.intercalate ['.'] a) = .ok da ∧
      Domain.new (List.intercalate ['.'] b) = .ok db ∧
      (da.IsSubDomain db = true ↔ b <:+ a) := by
  refine ⟨⟨_⟩, ⟨_⟩,
    Domain.new_of_ne_nil _ (intercalate_ne_nil a ha hla) _ (ReverseName_labels a ha hla hlena),
    Domain.new_of_ne_nil _ (intercalate_ne_nil b hb hlb) _ (ReverseName_labels b hb hlb hlenb),
    ?_⟩
  rw [Domain.isSubDomain_iff, flatten_labels_prefix_iff _ _
    (fun l hl => (hlb l (List.mem_reverse.1 hl)).2)
    (fun l hl => (hla l (List.mem_reverse.1 hl)).2), List.reverse_prefix]

theorem isSubDomain_iff_label_suffix_witness :
    (["asda".toList, "asda".toList, "ds".toList] ≠ [] ∧ ["asda".toList, "ds".toList] ≠ [] ∧
      (∀ l ∈ ["asda".toList, "asda".toList, "ds".toList], l ≠ [] ∧ '.' ∉ l) ∧
      (∀ l ∈ ["asda".toList, "ds".toList], l ≠ [] ∧ '.' ∉ l) ∧
      (List.intercalate ['.'] ["asda".toList, "asda".toList, "ds".toList]).length ≤ INT_MAX ∧
      (List.intercalate ['.'] ["asda".toList, "ds".toList]).length ≤ INT_MAX) ∧
    ∃ da db, Domain.new "asda.asda.ds".toList = .ok da ∧
      Domain.new "asda.ds".toList = .ok db ∧
      (da.IsSubDomain db = true ↔
        ["asda".toList, "ds".toList] <:+ ["asda".toList, "asda".toList, "ds".toList]) :=
  ⟨⟨by decide, by decide, by decide, by decide, by decide, by decide⟩,
    isSubDomain_iff_label_suffix ["asda".toList, "asda".toList, "ds".toList]
      ["asda".toList, "ds".toList] (by decide) (by decide) (by decide) (by decide) (by decide)
      (by decide)⟩

/-- C13, on the code, at a name that does not fit `int`: the name of the two labels `x...x`
(`2^31 + 1` characters) and `b` gets the canonical form `b.`, so the domain `b` passes the
prefix test against it although the labels `x...x`, `b` are not a suffix of the labels `b`. -/
theorem isSubDomain_of_long_labels :
    Domain.new (List.intercalate ['.'] [['b']]) = .ok (dom "b.") ∧
    Domain.new (List.intercalate ['.'] [long_label (2 ^ 31 + 1), ['b']]) = .ok (dom "b.") ∧
    (dom "b.").IsSubDomain (dom "b.") = true ∧
    ¬ [long_label (2 ^ 31 + 1), ['b']] <:+ [['b']] :=
  ⟨by decide, Domain.new_long_label_b, by decide, not_suffix_pair _⟩

/-- C14, as stated, fails: `as.ds` is a sub-domain of `ds` (its canonical form `ds.as.` starts
with `ds.`), so the checker built from `as.ds` and `ds` stores the single element `ds`. -/
theorem as_ds_and_ds_collapse_counterexample :
    (do
      let domain1 ← Domain.new "as.ds".toList
      let domain2 ← Domain.new "ds".toList
      pure ((DomainChecker.new [domain1, domain2]).forbidden_domains_,
        domain1.IsSubDomain domain2))
      = Except.ok (ε := Failure) ([dom "ds."], true) := by
  decide

/-- C14, amended: two domains of which neither is a sub-domain of the other are not
collapsed; the checker built from them stores both and nothing else. -/
theorem unrelated_pair_not_collapsed (A B : Domain) (hAB : A.IsSubDomain B = false)
    (hBA : B.IsSubDomain A = false) :
    A ∈ (DomainChecker.new [A, B]).forbidden_domains_ ∧
    B ∈ (DomainChecker.new [A, B]).forbidden_domains_ ∧
    (DomainChecker.new [A, B]).forbidden_domains_.length = 2 := by
  have hne : A ≠ B := by
    rintro rfl
    rw [Domain.isSubDomain_refl] at hAB
    cases hAB
  have hA : A ∈ (DomainChecker.new [A, B]).forbidden_domains_ := by
    obtain ⟨r, hr, hsub⟩ := stored_cover [A, B] (List.mem_cons_self A [B])
    have hmem := stored_subset [A, B] hr
    simp only [List.mem_cons, List.mem_singleton, List.not_mem_nil, or_false] at hmem
    rcases hmem with rfl | rfl
    · exact hr
    · rw [hsub] at hAB
      cases hAB
  have hB : B ∈ (DomainChecker.new [A, B]).forbidden_domains_ := by
    obtain ⟨r, hr, hsub⟩ :=
      stored_cover [A, B] (List.mem_cons_of_mem A (List.mem_singleton_self B))
    have hmem := stored_subset [A, B] hr
    simp only [List.mem_cons, List.mem_singleton, List.not_mem_nil, or_false] at hmem
    rcases hmem with rfl | rfl
    · rw [hsub] at hBA
      cases hBA
    · exact hr
  refine ⟨hA, hB, Nat.le_antisymm ?_ ?_⟩
  · have h1 := (unique_sublist sub_domain_comp (sort [A, B])).length_le
    have h2 := (sort_perm [A, B]).length_eq
    have h3 : (DomainChecker.new [A, B]).forbidden_domains_
        = unique sub_domain_comp (sort [A, B]) := rfl
    rw [h3]
    simpa [h2] using h1
  · have hnodup : [A, B].Nodup := by simp [hne]
    have hsub : [A, B] ⊆ (DomainChecker.new [A, B]).forbidden_domains_ := by
      intro x hx
      simp only [List.mem_cons, List.mem_singleton, List.not_mem_nil, or_false] at hx
      rcases hx with rfl | rfl
      · exact hA
      · exact hB
    exact (List.subperm_of_subset hnodup hsub).length_le

theorem unrelated_pair_not_collapsed_witness :
    ((dom "dasds.").IsSubDomain (dom "ds.") = false ∧
      (dom "ds.").IsSubDomain (dom "dasds.") = false) ∧
    (dom "dasds." ∈ (DomainChecker.new [dom "dasds.", dom "ds."]).forbidden_domains_ ∧
      dom "ds." ∈ (DomainChecker.new [dom "dasds.", dom "ds."]).forbidden_domains_ ∧
      (DomainChecker.new [dom "dasds.", dom "ds."]).forbidden_domains_.length = 2) :=
  ⟨⟨by decide, by decide⟩,
    unrelated_pair_not_collapsed (dom "dasds.") (dom "ds.") (by decide) (by decide)⟩

/-- C15: the sub-domain test is transitive. -/
theorem isSubDomain_transitive (A B C : Domain) (hAB : A.IsSubDomain B = true)
    (hBC : B.IsSubDomain C = true) : A.IsSubDomain C = true :=
  Domain.isSubDomain_trans hAB hBC

theorem isSubDomain_transitive_witness :
    ((dom "ds.asda.asda.").IsSubDomain (dom "ds.asda.") = true ∧
      (dom "ds.asda.").IsSubDomain (dom "ds.") = true) ∧
    (dom "ds.asda.asda.").IsSubDomain (dom "ds.") = true :=
  ⟨⟨by decide, by decide⟩,
    isSubDomain_transitive (dom "ds.asda.asda.") (dom "ds.asda.") (dom "ds.") (by decide)
      (by decide)⟩

/-- C16: the stored sequence is strictly increasing under `operator<`: every stored element
is less than the next one (and than every later one). -/
theorem stored_strictly_sorted (S : List Domain) :
    (DomainChecker.new S).forbidden_domains_.Chain' (fun a b => a.lt b = true) ∧
    (DomainChecker.new S).forbidden_domains_.Pairwise (fun a b => a.lt b = true) :=
  ⟨(stored_strict S).chain', stored_strict S⟩

/-- C17: the descendants of a domain are contiguous in the order: what lies between a domain
`B` and one of its descendants `A` is a descendant of `B`. -/
theorem descendants_contiguous (B X A : Domain) (hAB : A.IsSubDomain B = true)
    (hXB : X.lt B = false) (hAX : A.lt X = false) : X.IsSubDomain B = true :=
  Domain.isSubDomain_of_between hAB hXB hAX

theorem descendants_contiguous_witness :
    ((dom "ds.asda.").IsSubDomain (dom "ds.") = true ∧ (dom "ds.a.").lt (dom "ds.") = false ∧
      (dom "ds.asda.").lt (dom "ds.a.") = false) ∧
    (dom "ds.a.").IsSubDomain (dom "ds.") = true :=
  ⟨⟨by decide, by decide, by decide⟩,
    descendants_contiguous (dom "ds.") (dom "ds.a.") (dom "ds.asda.") (by decide) (by decide)
      (by decide)⟩

/-- C18: an ancestor is less than each of its proper descendants, and the descendant is not
less than the ancestor. -/
theorem ancestor_lt_descendant (A B : Domain) (hAB : A.IsSubDomain B = true)
    (hne : A.ne B = true) : B.lt A = true ∧ A.lt B = false := by
  have hle := Domain.le_of_isSubDomain hAB
  refine ⟨?_, hle⟩
  by_contra hlt
  have := Domain.eq_of_not_lt hle (by simpa using hlt)
  subst this
  simp [Domain.ne, Domain.eq] at hne

theorem ancestor_lt_descendant_witness :
    ((dom "ds.asda.").IsSubDomain (dom "ds.") = true ∧ (dom "ds.asda.").ne (dom "ds.") = true) ∧
    ((dom "ds.").lt (dom "ds.asda.") = true ∧ (dom "ds.asda.").lt (dom "ds.") = false) :=
  ⟨⟨by decide, by decide⟩,
    ancestor_lt_descendant (dom "ds.asda.") (dom "ds.") (by decide) (by decide)⟩

/-- C19: input lists that hold the same domains, in whatever order and however often, give
the same stored sequence and the same answer to every query. -/
theorem domainChecker_of_same_elements (S1 S2 : List Domain) (h : ∀ d, d ∈ S1 ↔ d ∈ S2) :
    (DomainChecker.new S1).forbidden_domains_ = (DomainChecker.new S2).forbidden_domains_ ∧
    ∀ D, (DomainChecker.new S1).IsForbidden D = (DomainChecker.new S2).IsForbidden D := by
  have hstored := stored_eq_of_same_elements S1 S2 h
  refine ⟨hstored, fun D => ?_⟩
  unfold DomainChecker.IsForbidden
  rw [hstored]

theorem domainChecker_of_same_elements_witness :
    (∀ d, d ∈ [dom "c.b.a.", dom "c.b.", dom "a."] ↔
      d ∈ [dom "a.", dom "c.b.", dom "a.", dom "c.b.a.", dom "c.b."]) ∧
    ((DomainChecker.new [dom "c.b.a.", dom "c.b.", dom "a."]).forbidden_domains_
        = (DomainChecker.new
            [dom "a.", dom "c.b.", dom "a.", dom "c.b.a.", dom "c.b."]).forbidden_domains_ ∧
      ∀ D, (DomainChecker.new [dom "c.b.a.", dom "c.b.", dom "a."]).IsForbidden D
        = (DomainChecker.new
            [dom "a.", dom "c.b.", dom "a.", dom "c.b.a.", dom "c.b."]).IsForbidden D) :=
  ⟨by
      intro d
      simp only [List.mem_cons, List.mem_singleton, List.not_mem_nil, or_false]
      tauto,
    domainChecker_of_same_elements [dom "c.b.a.", dom "c.b.", dom "a."]
      [dom "a.", dom "c.b.", dom "a.", dom "c.b.a.", dom "c.b."] (by
        intro d
        simp only [List.mem_cons, List.mem_singleton, List.not_mem_nil, or_false]
        tauto)⟩

/-- For a name `s = l1. ... .ln` of non-empty labels without separator whose length fits
`int`, canonicalizing the canonical form of `s` gives `s` followed by one separator; the
result differs from the canonical form of `s` whenever the list of labels does not read the
same in both directions. -/
theorem canonical_twice_restores_order (labels : List Str) (hne : labels ≠ [])
    (hlab : ∀ l ∈ labels, l ≠ [] ∧ '.' ∉ l)
    (hlen : (List.intercalate ['.'] labels).length ≤ INT_MAX) :
    ∃ d d', Domain.new (List.intercalate ['.'] labels) = .ok d ∧
      Domain.new d.GetReversedName = .ok d' ∧
      d'.GetReversedName = List.intercalate ['.'] labels ++ ['.'] ∧
      (labels.reverse ≠ labels → d'.GetReversedName ≠ d.GetReversedName) := by
  have hcanon : (labels.reverse.map (· ++ ['.'])).flatten ≠ [] := by
    rw [flatten_labels_eq_intercalate _ (by simpa using hne)]
    simp
  refine ⟨⟨_⟩, ⟨_⟩,
    Domain.new_of_ne_nil _ (intercalate_ne_nil labels hne hlab) _
      (ReverseName_labels labels hne hlab hlen),
    Domain.new_of_ne_nil _ hcanon _ (ReverseName_canonical labels hne hlab hlen),
    flatten_labels_eq_intercalate labels hne, ?_⟩
  intro hpal h
  exact hpal (flatten_labels_inj _ _ (fun l hl => (hlab l hl).2)
    (fun l hl => (hlab l (List.mem_reverse.1 hl)).2) h).symm

theorem canonical_twice_restores_order_witness :
    (["asda".toList, "ds".toList] ≠ [] ∧
      (∀ l ∈ ["asda".toList, "ds".toList], l ≠ [] ∧ '.' ∉ l) ∧
      (List.intercalate ['.'] ["asda".toList, "ds".toList]).length ≤ INT_MAX) ∧
    ∃ d d', Domain.new "asda.ds".toList = .ok d ∧
      Domain.new d.GetReversedName = .ok d' ∧
      d'.GetReversedName = "asda.ds.".toList ∧
      (["asda".toList, "ds".toList].reverse ≠ ["asda".toList, "ds".toList] →
        d'.GetReversedName ≠ d.GetReversedName) :=
  ⟨⟨by decide, by decide, by decide⟩,
    canonical_twice_restores_order ["asda".toList, "ds".toList] (by decide) (by decide)
      (by decide)⟩

/-- C20, on the code, at a name that does not fit `int`: the name `s` of the two labels
`x...x` (`2^31 + 1` characters) and `b` gets the canonical form `b.`, and canonicalizing `b.`
gives `b.` again, not `s` followed by a separator. -/
theorem canonical_twice_of_long_labels :
    Domain.new (List.intercalate ['.'] [long_label (2 ^ 31 + 1), ['b']]) = .ok (dom "b.") ∧
    Domain.new (dom "b.").GetReversedName = .ok (dom "b.") ∧
    (dom "b.").GetReversedName
      ≠ List.intercalate ['.'] [long_label (2 ^ 31 + 1), ['b']] ++ ['.'] := by
  refine ⟨Domain.new_long_label_b, by decide, ?_⟩
  rw [intercalate_pair, dom_b]
  exact dom_b_ne_raw _

end ForbiddenDomains
